import Mathlib

/-!
Verification of the mthds package manager against its specification.

This file gives a shallow embedding, in Lean 4, of the parts of the
mthds-python source that the verified claims are about:

* Minimum Version Selection (src/mthds/package/semver.py),
* qualified references (src/mthds/packages/qualified_ref.py),
* the visibility checker (src/mthds/package/visibility.py),
* the package cache path construction (src/mthds/packages/package_cache.py),
* bundle metadata extraction (src/mthds/packages/bundle_metadata.py),
* lock file generation and the directory hash (src/mthds/package/lock_file.py),
* the manifest TOML writer and reader (src/mthds/packages/manifest_parser.py,
  src/mthds/packages/manifest.py),
* the transitive dependency resolver (src/mthds/packages/dependency_resolver.py).

Pure functions become Lean functions; filesystem and subprocess effects are
replaced by explicit data (a directory is a list of files, the VCS/cache
substrate is a record of lookup functions).  Python dictionaries become
insertion-ordered association lists with the same overwrite semantics.
-/

set_option maxHeartbeats 1000000

/-! ## String helpers (src/mthds/_utils/string_utils.py) -/

/-- Character class check for the body of a snake_case identifier. -/
def isLowerAlpha (c : Char) : Bool := 'a' ≤ c && c ≤ 'z'

/-- Digit check. -/
def isDigitCh (c : Char) : Bool := '0' ≤ c && c ≤ '9'

/-- Body character of snake_case: lowercase letter, digit or underscore. -/
def isSnakeBody (c : Char) : Bool := isLowerAlpha c || isDigitCh c || c = '_'

/-- Embeds is_snake_case: the regex matching a lowercase letter followed by
lowercase letters, digits or underscores. -/
def is_snake_case (w : String) : Bool :=
  match w.toList with
  | [] => false
  | c :: rest => isLowerAlpha c && rest.all isSnakeBody

/-! ## Minimum Version Selection (src/mthds/package/semver.py)

The semantic_version library is abstracted: a version is any element of a
type ordered by a total transitive relation (Python sorts versions with the
semver comparison, a total preorder), and a constraint is abstracted to its
satisfaction test, a Boolean predicate on versions (SimpleSpec.match). -/

section Semver

variable {V : Type} (r : V → V → Prop) [DecidableRel r]

/-- Embeds select_minimum_version: sort the available versions ascending and
return the first one matching the constraint (Go-style MVS). -/
def select_minimum_version (available_versions : List V) (constraint : V → Bool) :
    Option V :=
  (available_versions.insertionSort r).find? constraint

/-- Embeds select_minimum_version_for_multiple_constraints: sort ascending and
return the first version satisfying all constraints simultaneously. -/
def select_minimum_version_for_multiple_constraints
    (available_versions : List V) (constraints : List (V → Bool)) : Option V :=
  (available_versions.insertionSort r).find? fun version =>
    constraints.all fun constraint => constraint version

set_option linter.unusedSectionVars false

/-- In a list sorted by a total transitive relation, the first element found
satisfying a predicate is below every element of the list satisfying it. -/
theorem find_in_sorted_is_minimal [IsTotal V r] [IsTrans V r] (c : V → Bool) :
    ∀ (l : List V), l.Pairwise r → ∀ v, l.find? c = some v →
      ∀ u ∈ l, c u = true → r v u := by
  intro l
  induction l with
  | nil => intro _ v hv; simp [List.find?] at hv
  | cons a t ih =>
    intro hp v hv u hu hcu
    rw [List.find?_cons] at hv
    by_cases hca : c a = true
    · simp [hca] at hv
      subst hv
      rcases List.mem_cons.mp hu with h | h
      · subst h; rcases IsTotal.total (r := r) u u with h' | h' <;> exact h'
      · exact (List.pairwise_cons.mp hp).1 u h
    · simp [hca] at hv
      rcases List.mem_cons.mp hu with h | h
      · subst h; exact absurd hcu hca
      · exact ih (List.pairwise_cons.mp hp).2 v hv u h hcu

end Semver

/-- Claim C4: select_minimum_version returns the smallest available version
satisfying the constraint when one exists and none otherwise, and
select_minimum_version_for_multiple_constraints returns the smallest available
version satisfying every constraint simultaneously, none when no version
satisfies all of them ("smallest" with respect to the total transitive sort
relation). -/
theorem mvs_minimality {V : Type} (r : V → V → Prop) [DecidableRel r]
    [IsTotal V r] [IsTrans V r]
    (available_versions : List V) (constraint : V → Bool)
    (constraints : List (V → Bool)) :
    ((∃ v ∈ available_versions, constraint v = true) →
      ∃ v, select_minimum_version r available_versions constraint = some v ∧
        v ∈ available_versions ∧ constraint v = true ∧
        ∀ u ∈ available_versions, constraint u = true → r v u) ∧
    ((∀ v ∈ available_versions, constraint v = false) →
      select_minimum_version r available_versions constraint = none) ∧
    ((∃ v ∈ available_versions, ∀ c ∈ constraints, c v = true) →
      ∃ v, select_minimum_version_for_multiple_constraints r available_versions
          constraints = some v ∧
        v ∈ available_versions ∧ (∀ c ∈ constraints, c v = true) ∧
        ∀ u ∈ available_versions, (∀ c ∈ constraints, c u = true) → r v u) ∧
    ((∀ v ∈ available_versions, ∃ c ∈ constraints, c v = false) →
      select_minimum_version_for_multiple_constraints r available_versions
        constraints = none) := by
  constructor
  · rintro ⟨v, hv, hcv⟩
    have hmem : v ∈ available_versions.insertionSort r :=
      (List.perm_insertionSort r available_versions).mem_iff.mpr hv
    have hsome : ((available_versions.insertionSort r).find? constraint).isSome :=
      List.find?_isSome.mpr ⟨v, hmem, hcv⟩
    rcases Option.isSome_iff_exists.mp hsome with ⟨w, hw⟩
    refine ⟨w, hw, ?_, List.find?_some hw, ?_⟩
    · exact (List.perm_insertionSort r available_versions).mem_iff.mp
        (List.mem_of_find?_eq_some hw)
    · intro u hu hcu
      exact find_in_sorted_is_minimal r constraint _
        (List.sorted_insertionSort r available_versions) w hw u
        ((List.perm_insertionSort r available_versions).mem_iff.mpr hu) hcu
  refine ⟨?_, ?_, ?_⟩
  · intro hnone
    apply List.find?_eq_none.mpr
    intro u hu
    have := hnone u ((List.perm_insertionSort r available_versions).mem_iff.mp hu)
    simp [this]
  · rintro ⟨v, hv, hcv⟩
    have hcv' : (constraints.all fun c => c v) = true := by
      rw [List.all_eq_true]; intro c hc; exact hcv c hc
    have hmem : v ∈ available_versions.insertionSort r :=
      (List.perm_insertionSort r available_versions).mem_iff.mpr hv
    have hsome :
        ((available_versions.insertionSort r).find?
          (fun version => constraints.all fun c => c version)).isSome :=
      List.find?_isSome.mpr ⟨v, hmem, hcv'⟩
    rcases Option.isSome_iff_exists.mp hsome with ⟨w, hw⟩
    refine ⟨w, hw, ?_, ?_, ?_⟩
    · exact (List.perm_insertionSort r available_versions).mem_iff.mp
        (List.mem_of_find?_eq_some hw)
    · intro c hc
      have := List.find?_some hw
      rw [List.all_eq_true] at this
      exact this c hc
    · intro u hu hcu
      have hcu' : (constraints.all fun c => c u) = true := by
        rw [List.all_eq_true]; intro c hc; exact hcu c hc
      exact find_in_sorted_is_minimal r _ _
        (List.sorted_insertionSort r available_versions) w hw u
        ((List.perm_insertionSort r available_versions).mem_iff.mpr hu) hcu'
  · intro hnone
    apply List.find?_eq_none.mpr
    intro u hu
    rcases hnone u ((List.perm_insertionSort r available_versions).mem_iff.mp hu)
      with ⟨c, hc, hcf⟩
    simp only [List.all_eq_true]
    push_neg
    exact ⟨c, hc, by simp [hcf]⟩

/-- Witness for C4 at a concrete input: versions 3, 1, 2 with the constraint
"at least 2" select 2, and with the pair of constraints "at least 2" and
"at most 2" also select 2. -/
theorem mvs_minimality_witness :
    (∃ v, select_minimum_version (V := Nat) (· ≤ ·) [3, 1, 2]
        (fun v => decide (2 ≤ v)) = some v ∧
      v ∈ [3, 1, 2] ∧ decide (2 ≤ v) = true ∧
      ∀ u ∈ [3, 1, 2], decide (2 ≤ u) = true → v ≤ u) ∧
    (∃ v, select_minimum_version_for_multiple_constraints (V := Nat) (· ≤ ·)
        [3, 1, 2] [fun v => decide (2 ≤ v), fun v => decide (v ≤ 2)] = some v ∧
      v ∈ [3, 1, 2] ∧
      (∀ c ∈ [fun v => decide (2 ≤ v), fun v => decide (v ≤ 2)], c v = true) ∧
      ∀ u ∈ [3, 1, 2],
        (∀ c ∈ [fun v => decide (2 ≤ v), fun v => decide (v ≤ 2)], c u = true) →
          v ≤ u) := by
  have h := mvs_minimality (V := Nat) (· ≤ ·) [3, 1, 2]
    (fun v => decide (2 ≤ v)) [fun v => decide (2 ≤ v), fun v => decide (v ≤ 2)]
  exact ⟨h.1 ⟨2, by decide, by decide⟩, h.2.2.1 ⟨2, by decide, by decide⟩⟩

/-! ## Qualified references (src/mthds/packages/qualified_ref.py) -/

/-- A domain-qualified reference to a concept or pipe: either bare
(local_code only) or qualified (domain_path and local_code). -/
structure QualifiedRef where
  domain_path : Option String
  local_code : String
deriving DecidableEq, Repr

/-- True when the character list contains two consecutive dots
(the substring test for ".." in the source). -/
def hasDoubleDot : List Char → Bool
  | '.' :: '.' :: _ => true
  | _ :: rest => hasDoubleDot rest
  | [] => false

/-- Split a character list at its last dot, returning the parts before and
after it, or none when no dot occurs (Python rsplit on "." with maxsplit 1). -/
def splitLastDot : List Char → Option (List Char × List Char)
  | [] => none
  | c :: rest =>
    match splitLastDot rest with
    | some (d, t) => some (c :: d, t)
    | none => if c = '.' then some ([], rest) else none

/-- A successful last-dot split reassembles to the original list. -/
theorem splitLastDot_append : ∀ (l d t : List Char),
    splitLastDot l = some (d, t) → l = d ++ '.' :: t := by
  intro l
  induction l with
  | nil => intro d t h; simp [splitLastDot] at h
  | cons c rest ih =>
    intro d t h
    simp only [splitLastDot] at h
    cases hrec : splitLastDot rest with
    | some p =>
      rcases p with ⟨d', t'⟩
      rw [hrec] at h
      simp only [Option.some.injEq, Prod.mk.injEq] at h
      rcases h with ⟨hd, ht⟩
      subst hd; subst ht
      rw [ih d' t' hrec]
      rfl
    | none =>
      rw [hrec] at h
      by_cases hc : c = '.'
      · simp [hc] at h
        rcases h with ⟨hd, ht⟩
        subst hd; subst ht
        simp [hc]
      · simp [hc] at h

/-- Embeds QualifiedRef.parse: split on the last dot, with no
naming-convention check on local_code.  Errors on an empty string, a leading
or trailing dot, or consecutive dots. -/
def QualifiedRef.parse (raw : String) : Except String QualifiedRef :=
  if raw = "" then .error "Qualified reference cannot be empty"
  else if raw.toList.head? = some '.' ∨ raw.toList.getLast? = some '.' then
    .error "Qualified reference must not start or end with a dot"
  else if hasDoubleDot raw.toList then
    .error "Qualified reference must not contain consecutive dots"
  else
    match splitLastDot raw.toList with
    | none => .ok ⟨none, raw⟩
    | some (d, c) => .ok ⟨some (String.mk d), String.mk c⟩

/-- Embeds the full_ref property: rejoin domain_path and local_code with a
dot, or return the bare local_code. -/
def QualifiedRef.full_ref (ref : QualifiedRef) : String :=
  match ref.domain_path with
  | some d => d ++ "." ++ ref.local_code
  | none => ref.local_code

/-- Claim C10: for every string accepted by QualifiedRef.parse, the full_ref
of the parsed result is the original input string, whether the result is bare
or domain-qualified. -/
theorem qualified_ref_round_trip (raw : String) (ref : QualifiedRef)
    (h : QualifiedRef.parse raw = .ok ref) : ref.full_ref = raw := by
  unfold QualifiedRef.parse at h
  split at h
  · exact absurd h (by simp)
  split at h
  · exact absurd h (by simp)
  split at h
  · exact absurd h (by simp)
  rename_i hne hdot hdd
  cases hsplit : splitLastDot raw.toList with
  | none =>
    rw [hsplit] at h
    simp at h
    subst h
    rfl
  | some p =>
    rcases p with ⟨d, c⟩
    rw [hsplit] at h
    simp at h
    subst h
    have hraw : raw.toList = d ++ '.' :: c := splitLastDot_append _ d c hsplit
    show String.mk d ++ "." ++ String.mk c = raw
    have happ : ∀ a b : List Char, String.mk a ++ String.mk b = String.mk (a ++ b) :=
      fun a b => rfl
    cases raw with
    | mk data =>
      simp only [String.toList] at hraw
      have hdot' : ("." : String) = String.mk ['.'] := rfl
      rw [hdot', happ, happ]
      exact congrArg String.mk (by simp [hraw])

/-- Witness for C10 at a concrete input: parsing a two-segment pipe reference
and rejoining it gives back the original string. -/
theorem qualified_ref_round_trip_witness :
    QualifiedRef.parse "legal.contracts.extract_clause" =
      .ok ⟨some "legal.contracts", "extract_clause"⟩ ∧
    QualifiedRef.full_ref ⟨some "legal.contracts", "extract_clause"⟩ =
      "legal.contracts.extract_clause" :=
  ⟨rfl, qualified_ref_round_trip _ _ rfl⟩

/-! ## Pipe reference validation (src/mthds/packages/qualified_ref.py) -/

/-- Snake-case test on a character list (regex body of is_snake_case). -/
def isSnakeChars : List Char → Bool
  | [] => false
  | c :: rest => isLowerAlpha c && rest.all isSnakeBody

/-- Split a character list on every dot (Python str.split on "."). -/
def splitOnDotCh : List Char → List (List Char)
  | [] => [[]]
  | c :: rest =>
    if c = '.' then [] :: splitOnDotCh rest
    else
      match splitOnDotCh rest with
      | [] => [[c]]
      | s :: ss => (c :: s) :: ss

/-- Embeds _validate_domain_path: every dot-separated segment of the domain
path must be snake_case. -/
def validDomainPathSegments (domain_path : String) : Bool :=
  (splitOnDotCh domain_path.toList).all isSnakeChars

/-- Embeds QualifiedRef.parse_pipe_ref: parse, then require a snake_case
local code and snake_case domain path segments. -/
def QualifiedRef.parse_pipe_ref (raw : String) : Except String QualifiedRef :=
  match QualifiedRef.parse raw with
  | .error e => .error e
  | .ok ref =>
    if !isSnakeChars ref.local_code.toList then
      .error ("Pipe code " ++ ref.local_code ++ " must be snake_case")
    else
      match ref.domain_path with
      | none => .ok ref
      | some d =>
        if validDomainPathSegments d then .ok ref
        else .error ("Domain segment in reference " ++ raw ++ " must be snake_case")

/-- True when the character list contains the cross-package marker "->"
(embeds has_cross_package_prefix from the source). -/
def hasCrossPackageMark : List Char → Bool
  | '-' :: '>' :: _ => true
  | _ :: rest => hasCrossPackageMark rest
  | [] => false

/-- Split at the first "->" marker, returning the alias part and the
remainder (embeds split_cross_package_ref, Python split with maxsplit 1). -/
def splitCrossPackageMark : List Char → Option (List Char × List Char)
  | '-' :: '>' :: rest => some ([], rest)
  | c :: rest =>
    match splitCrossPackageMark rest with
    | some (a, b) => some (c :: a, b)
    | none => none
  | [] => none

/-! ## Visibility checking (src/mthds/package/visibility.py)

The MethodsManifest model imported by the visibility checker lives in
mthds/package/manifest/schema.py, which is not part of the sources.
Modelled from the spec: a manifest carries a dependency table (each entry
with a snake_case alias) and an exports tree flattened to entries pairing a
dotted domain path with its exported pipe codes; the visibility checker reads
exactly the fields domain_path, pipes and the dependency aliases. -/

/-- Exports for a single domain within a package. -/
structure DomainExports where
  domain_path : String
  pipes : List String
deriving DecidableEq, Repr

/-- A dependency on another package (field alias of the source is named
depAlias here because alias is a Lean keyword). -/
structure PackageDependency where
  address : String
  version : String
  depAlias : String
  path : Option String
deriving DecidableEq, Repr

/-- Modelled from the spec: the manifest fields the visibility checker reads
(schema module missing from the sources; see the section comment). -/
structure MethodsManifest where
  address : String
  version : String
  description : String
  dependencies : List PackageDependency
  exports : List DomainExports
deriving DecidableEq, Repr

/-- Metadata extracted from a bundle file header
(src/mthds/packages/bundle_metadata.py). -/
structure BundleMetadata where
  domain : String
  main_pipe : Option String
  pipe_codes : List String
  source : String
  pipe_references : List (String × String)
deriving DecidableEq, Repr

/-- A single visibility violation. -/
structure VisibilityError where
  pipe_ref : String
  source_domain : String
  target_domain : String
  context : String
  message : String
deriving DecidableEq, Repr

/-- The reserved first segments for bundle domains
(RESERVED_DOMAINS in the source). -/
def RESERVED_DOMAINS : List String := ["native", "mthds", "pipelex"]

/-- First dot-separated segment of a domain path
(Python split on "." with maxsplit 1, first element). -/
def firstSegmentStr (s : String) : String :=
  String.mk (s.toList.takeWhile (· ≠ '.'))

/-- Embeds is_reserved_domain_path: the first segment is reserved. -/
def is_reserved_domain_path (domain_path : String) : Bool :=
  RESERVED_DOMAINS.contains (firstSegmentStr domain_path)

/-- The exported-pipes lookup the checker builds: a dict from domain path to
the pipe set of the last exports entry with that path (later entries
overwrite earlier ones, as in the Python dict build).  Lookup misses yield
the empty set. -/
def exportedPipesFor (exports : List DomainExports) (domain : String) : List String :=
  match exports.reverse.find? (fun e => e.domain_path == domain) with
  | some e => e.pipes
  | none => []

/-- The main-pipe lookup the checker builds: for each domain, the first
bundle in the list declaring a non-empty main_pipe for it wins; conflicting
later declarations are dropped with a warning. -/
def mainPipeFor (metas : List BundleMetadata) (domain : String) : Option String :=
  match metas.find? (fun m => m.domain == domain && m.main_pipe.getD "" != "") with
  | some m => m.main_pipe
  | none => none

/-- Embeds is_pipe_accessible_from: no manifest means all public; bare and
same-domain references always pass; a cross-domain reference must be in the
target domain's exports or be its (auto-exported) main pipe. -/
def is_pipe_accessible_from (manifest : Option MethodsManifest)
    (metas : List BundleMetadata) (pipe_ref : QualifiedRef)
    (source_domain : String) : Bool :=
  match manifest with
  | none => true
  | some m =>
    match pipe_ref.domain_path with
    | none => true
    | some target_domain =>
      if target_domain == source_domain then true
      else if (exportedPipesFor m.exports target_domain).contains pipe_ref.local_code
        then true
      else
        match mainPipeFor metas target_domain with
        | some mp => pipe_ref.local_code == mp
        | none => false

/-- Embeds validate_all_pipe_references: with no manifest, no violations;
otherwise every outbound reference that parses as a pipe ref and is not
accessible from its bundle's domain yields one violation record. -/
def validate_all_pipe_references (manifest : Option MethodsManifest)
    (metas : List BundleMetadata) : List VisibilityError :=
  match manifest with
  | none => []
  | some _ =>
    metas.flatMap fun meta =>
      meta.pipe_references.filterMap fun rc =>
        match QualifiedRef.parse_pipe_ref rc.1 with
        | .error _ => none
        | .ok ref =>
          if is_pipe_accessible_from manifest metas ref meta.domain then none
          else
            some { pipe_ref := rc.1
                   source_domain := meta.domain
                   target_domain := ref.domain_path.getD ""
                   context := rc.2
                   message := "Pipe " ++ rc.1 ++ " referenced in " ++ rc.2 ++
                     " (domain " ++ meta.domain ++ ") is not exported by domain " ++
                     ref.domain_path.getD "" }

/-- Embeds validate_cross_package_references: with no manifest, no
violations; references containing the "->" marker whose alias part is not a
declared dependency alias yield one violation each (known aliases are only
logged). -/
def validate_cross_package_references (manifest : Option MethodsManifest)
    (metas : List BundleMetadata) : List VisibilityError :=
  match manifest with
  | none => []
  | some m =>
    let known := m.dependencies.map (·.depAlias)
    metas.flatMap fun meta =>
      meta.pipe_references.filterMap fun rc =>
        if !hasCrossPackageMark rc.1.toList then none
        else
          match splitCrossPackageMark rc.1.toList with
          | none => none
          | some (a, _rest) =>
            if known.contains (String.mk a) then none
            else
              some { pipe_ref := rc.1
                     source_domain := meta.domain
                     target_domain := String.mk a
                     context := rc.2
                     message := "Cross-package reference " ++ rc.1 ++ " in " ++
                       rc.2 ++ ": alias " ++ String.mk a ++ " is not declared" }

/-- Embeds validate_reserved_domains: one violation for every bundle whose
domain starts with a reserved segment.  Note that this check does not
consult the manifest. -/
def validate_reserved_domains (metas : List BundleMetadata) :
    List VisibilityError :=
  metas.filterMap fun meta =>
    if is_reserved_domain_path meta.domain then
      some { pipe_ref := ""
             source_domain := meta.domain
             target_domain := firstSegmentStr meta.domain
             context := "bundle domain declaration"
             message := "Bundle domain " ++ meta.domain ++
               " uses reserved domain " ++ firstSegmentStr meta.domain }
    else none

/-- Embeds check_visibility: reserved-domain violations, then cross-domain
pipe reference violations, then cross-package reference violations. -/
def check_visibility (manifest : Option MethodsManifest)
    (metas : List BundleMetadata) : List VisibilityError :=
  validate_reserved_domains metas ++
    validate_all_pipe_references manifest metas ++
      validate_cross_package_references manifest metas

/-- Claim C2 counterexample: with an absent manifest, a bundle declaring the
reserved domain native.foo still produces a violation, so the visibility
check does not return an empty list for every bundle list when the manifest
is None. -/
theorem check_visibility_no_manifest_counterexample :
    check_visibility none [⟨"native.foo", none, [], "", []⟩] ≠ [] := by decide

/-- Claim C2 (amended): with an absent manifest the cross-domain check and
the cross-package check are skipped (they return no violations, and every
pipe is treated as accessible), but the reserved-domain check still runs, so
the visibility check returns exactly the reserved-domain violations. -/
theorem check_visibility_no_manifest (metas : List BundleMetadata) :
    check_visibility none metas = validate_reserved_domains metas ∧
    validate_all_pipe_references none metas = [] ∧
    validate_cross_package_references none metas = [] ∧
    ∀ ref d, is_pipe_accessible_from none metas ref d = true := by
  refine ⟨?_, rfl, rfl, fun ref d => rfl⟩
  simp [check_visibility, validate_all_pipe_references,
    validate_cross_package_references]

/-- Decomposition of a violation produced by validate_all_pipe_references:
it comes from an occurrence of an outbound reference that parses as a pipe
ref and is inaccessible from its bundle's domain. -/
theorem validate_all_mem_elim {m : MethodsManifest} {metas : List BundleMetadata}
    {e : VisibilityError} (he : e ∈ validate_all_pipe_references (some m) metas) :
    ∃ meta' ∈ metas, ∃ rc' ∈ meta'.pipe_references, ∃ ref',
      QualifiedRef.parse_pipe_ref rc'.1 = .ok ref' ∧
      is_pipe_accessible_from (some m) metas ref' meta'.domain = false ∧
      e.pipe_ref = rc'.1 ∧ e.source_domain = meta'.domain := by
  simp only [validate_all_pipe_references, List.mem_flatMap, List.mem_filterMap] at he
  obtain ⟨meta', hmeta', rc', hrc', hsome⟩ := he
  cases hp : QualifiedRef.parse_pipe_ref rc'.1 with
  | error err => rw [hp] at hsome; simp at hsome
  | ok ref' =>
    rw [hp] at hsome
    by_cases hacc : is_pipe_accessible_from (some m) metas ref' meta'.domain = true
    · simp [hacc] at hsome
    · rw [Bool.not_eq_true] at hacc
      simp only [hacc, Bool.false_eq_true, if_false] at hsome
      refine ⟨meta', hmeta', rc', hrc', ref', hp, hacc, ?_, ?_⟩ <;>
        (injection hsome with h; rw [← h])

/-- Introduction of a violation into validate_all_pipe_references from an
inaccessible occurrence. -/
theorem validate_all_mem_intro {m : MethodsManifest} {metas : List BundleMetadata}
    {meta : BundleMetadata} {rc : String × String} {ref : QualifiedRef}
    (hmeta : meta ∈ metas) (hrc : rc ∈ meta.pipe_references)
    (hp : QualifiedRef.parse_pipe_ref rc.1 = .ok ref)
    (hacc : is_pipe_accessible_from (some m) metas ref meta.domain = false) :
    ∃ e ∈ validate_all_pipe_references (some m) metas,
      e.pipe_ref = rc.1 ∧ e.source_domain = meta.domain := by
  refine ⟨{ pipe_ref := rc.1
            source_domain := meta.domain
            target_domain := ref.domain_path.getD ""
            context := rc.2
            message := "Pipe " ++ rc.1 ++ " referenced in " ++ rc.2 ++
              " (domain " ++ meta.domain ++ ") is not exported by domain " ++
              ref.domain_path.getD "" }, ?_, rfl, rfl⟩
  simp only [validate_all_pipe_references, List.mem_flatMap, List.mem_filterMap]
  refine ⟨meta, hmeta, rc, hrc, ?_⟩
  simp only [hp, hacc, Bool.false_eq_true, if_false]

/-- A cross-domain pipe reference is inaccessible exactly when its code is
neither in the exports table entry for the target domain nor the target
domain's registered main pipe. -/
theorem accessible_false_iff (m : MethodsManifest) (metas : List BundleMetadata)
    (ref : QualifiedRef) (src d2 : String)
    (hd : ref.domain_path = some d2) (hne : d2 ≠ src) :
    is_pipe_accessible_from (some m) metas ref src = false ↔
      ¬(ref.local_code ∈ exportedPipesFor m.exports d2 ∨
        mainPipeFor metas d2 = some ref.local_code) := by
  unfold is_pipe_accessible_from
  rw [hd]
  have hbeq : (d2 == src) = false := by
    simp only [beq_eq_false_iff_ne, ne_eq]; exact hne
  simp only [hbeq, Bool.false_eq_true, if_false]
  by_cases hc : ref.local_code ∈ exportedPipesFor m.exports d2
  · have : (exportedPipesFor m.exports d2).contains ref.local_code = true :=
      List.elem_iff.mpr hc
    simp [this, hc]
  · have : (exportedPipesFor m.exports d2).contains ref.local_code = false := by
      rw [← Bool.not_eq_true]
      intro hcontra
      exact hc (List.elem_iff.mp hcontra)
    simp only [this, Bool.false_eq_true, if_false]
    cases hmp : mainPipeFor metas d2 with
    | none => simp [hc]
    | some mp =>
      constructor
      · intro hfalse
        rintro (h | h)
        · exact hc h
        · injection h with h
          have hfalse' : (ref.local_code == mp) = false := hfalse
          rw [h] at hfalse'
          simp at hfalse'
      · intro hnot
        show (ref.local_code == mp) = false
        rw [Bool.eq_false_iff]
        intro heq
        rw [beq_iff_eq] at heq
        exact hnot (Or.inr (by rw [heq]))

/-- A bare or same-domain reference is always accessible. -/
theorem accessible_of_local (m : MethodsManifest) (metas : List BundleMetadata)
    (ref : QualifiedRef) (src : String)
    (h : ref.domain_path = none ∨ ref.domain_path = some src) :
    is_pipe_accessible_from (some m) metas ref src = true := by
  unfold is_pipe_accessible_from
  rcases h with h | h <;> rw [h] <;> simp

/-- Claim C3 counterexample: with two bundles in domain scoring declaring
conflicting main pipes, only the first declaration is honoured, so a
reference to the second bundle's declared main pipe from another domain is a
violation even though it is the main_pipe of some bundle whose domain is the
target domain (and the exports table is empty). -/
theorem cross_domain_main_pipe_first_wins :
    (∃ e ∈ validate_all_pipe_references
        (some ⟨"github.com/acme/pkg", "1.0.0", "test", [], []⟩)
        [⟨"legal", none, [], "", [("scoring.b_pipe", "pipe.p.steps[0].pipe")]⟩,
         ⟨"scoring", some "a_pipe", [], "", []⟩,
         ⟨"scoring", some "b_pipe", [], "", []⟩],
      e.pipe_ref = "scoring.b_pipe" ∧ e.source_domain = "legal") ∧
    (⟨"scoring", some "b_pipe", [], "", []⟩ : BundleMetadata) ∈
      [⟨"legal", none, [], "", [("scoring.b_pipe", "pipe.p.steps[0].pipe")]⟩,
       ⟨"scoring", some "a_pipe", [], "", []⟩,
       ⟨"scoring", some "b_pipe", [], "", []⟩] ∧
    (⟨"scoring", some "b_pipe", [], "", []⟩ : BundleMetadata).main_pipe =
      some "b_pipe" ∧
    (⟨"github.com/acme/pkg", "1.0.0", "test", [], []⟩ : MethodsManifest).exports
      = [] := by
  refine ⟨?_, by decide, rfl, rfl⟩
  decide

/-- Claim C3 (amended): given a manifest, an outbound reference occurrence
from a bundle that parses as a pipe ref qualified to a different domain d2
produces a cross-domain violation if and only if its pipe code is neither in
the (last) exports entry for d2 nor equal to the main pipe registered for d2
(the first non-empty main_pipe declared by a bundle of domain d2; on
conflicting declarations the first wins).  Bare references and references
qualified to the bundle's own domain never produce a violation carrying that
reference and source domain. -/
theorem cross_domain_export_gated
    (m : MethodsManifest) (metas : List BundleMetadata)
    (meta : BundleMetadata) (refStr ctx : String) (ref : QualifiedRef)
    (hmeta : meta ∈ metas) (href : (refStr, ctx) ∈ meta.pipe_references)
    (hparse : QualifiedRef.parse_pipe_ref refStr = .ok ref) :
    (∀ d2, ref.domain_path = some d2 → d2 ≠ meta.domain →
      ((∃ e ∈ validate_all_pipe_references (some m) metas,
          e.pipe_ref = refStr ∧ e.source_domain = meta.domain) ↔
        ¬(ref.local_code ∈ exportedPipesFor m.exports d2 ∨
          mainPipeFor metas d2 = some ref.local_code))) ∧
    ((ref.domain_path = none ∨ ref.domain_path = some meta.domain) →
      ∀ e ∈ validate_all_pipe_references (some m) metas,
        ¬(e.pipe_ref = refStr ∧ e.source_domain = meta.domain)) := by
  constructor
  · intro d2 hd2 hne
    constructor
    · rintro ⟨e, he, hpr, hsd⟩
      obtain ⟨meta', hmeta', rc', hrc', ref', hp', hacc', hepr, hesd⟩ :=
        validate_all_mem_elim he
      have hrc1 : rc'.1 = refStr := by rw [← hepr, hpr]
      have hdom : meta'.domain = meta.domain := by rw [← hesd, hsd]
      rw [hrc1, hparse] at hp'
      have href' : ref' = ref := by
        injection hp' with h; exact h.symm
      subst href'
      rw [hdom] at hacc'
      exact (accessible_false_iff m metas ref' meta.domain d2 hd2 hne).mp hacc'
    · intro hnot
      have hacc : is_pipe_accessible_from (some m) metas ref meta.domain = false :=
        (accessible_false_iff m metas ref meta.domain d2 hd2 hne).mpr hnot
      exact validate_all_mem_intro hmeta href hparse hacc
  · intro hloc e he ⟨hpr, hsd⟩
    obtain ⟨meta', hmeta', rc', hrc', ref', hp', hacc', hepr, hesd⟩ :=
      validate_all_mem_elim he
    have hrc1 : rc'.1 = refStr := by rw [← hepr, hpr]
    have hdom : meta'.domain = meta.domain := by rw [← hesd, hsd]
    rw [hrc1, hparse] at hp'
    have href' : ref' = ref := by injection hp' with h; exact h.symm
    subst href'
    rw [hdom] at hacc'
    rw [accessible_of_local m metas ref' meta.domain hloc] at hacc'
    exact absurd hacc' (by simp)

/-- Witness for C3 at a concrete input: a reference to an unexported pipe of
another domain is flagged, matching the right-hand side of the equivalence,
and a same-domain reference is never flagged. -/
theorem cross_domain_export_gated_witness :
    ((∃ e ∈ validate_all_pipe_references
        (some ⟨"github.com/acme/pkg", "1.0.0", "test", [],
          [⟨"scoring", ["public_pipe"]⟩]⟩)
        [⟨"legal", none, [], "", [("scoring.private_pipe", "pipe header")]⟩],
      e.pipe_ref = "scoring.private_pipe" ∧ e.source_domain = "legal") ↔
      ¬(("private_pipe" : String) ∈
          exportedPipesFor [⟨"scoring", ["public_pipe"]⟩] "scoring" ∨
        mainPipeFor
          [⟨"legal", none, [], "", [("scoring.private_pipe", "pipe header")]⟩]
          "scoring" = some "private_pipe")) := by
  have h := cross_domain_export_gated
    ⟨"github.com/acme/pkg", "1.0.0", "test", [], [⟨"scoring", ["public_pipe"]⟩]⟩
    [⟨"legal", none, [], "", [("scoring.private_pipe", "pipe header")]⟩]
    ⟨"legal", none, [], "", [("scoring.private_pipe", "pipe header")]⟩
    "scoring.private_pipe" "pipe header" ⟨some "scoring", "private_pipe"⟩
    (by decide) (by decide) (by rfl)
  exact h.1 "scoring" rfl (by decide)

/-! ## Package cache paths (src/mthds/packages/package_cache.py)

A filesystem path is modelled as its list of components.  pathlib's slash
operator splits a multi-segment string operand on "/" and appends the
resulting components without any normalization, so root / address / version
is plain component concatenation. -/

/-- Split a character list on every occurrence of a separator character
(Python str.split semantics). -/
def splitOnCh (sep : Char) : List Char → List (List Char)
  | [] => [[]]
  | c :: rest =>
    if c = sep then [] :: splitOnCh sep rest
    else
      match splitOnCh sep rest with
      | [] => [[c]]
      | s :: ss => (c :: s) :: ss

/-- Components contributed by a string operand of the pathlib slash. -/
def pathComponents (s : String) : List String :=
  (splitOnCh '/' s.toList).map String.mk

/-- Embeds get_cached_package_path: root / address / version, a pure
component concatenation with no validation of the address or version. -/
def get_cached_package_path (cache_root : List String)
    (address version : String) : List String :=
  cache_root ++ pathComponents address ++ pathComponents version

/-- The final destination path computed inside store_in_cache (the line
final_path = get_cached_package_path(address, version, cache_root)); the
function then copies into a sibling staging directory and renames it over
this path, again with no validation of the components. -/
def store_in_cache_final_path (cache_root : List String)
    (address version : String) : List String :=
  get_cached_package_path cache_root address version

/-- Resolve ".." components against the accumulated path: the directory the
computed path actually designates on a filesystem. -/
def resolveDots (acc : List String) : List String → List String
  | [] => acc
  | s :: rest =>
    if s = ".." then resolveDots acc.dropLast rest
    else resolveDots (acc ++ [s]) rest

/-- Claim C1 evidence: at the failing input address "../../etc/passwd",
version "1.0.0", the cache path construction of
src/mthds/packages/package_cache.py returns a path containing ".." segments
rather than failing, and the directory that path designates lies outside the
cache root (its resolved components do not start with the cache root).  The
same path is the commit destination of store_in_cache.  The claim (and the
repository's own tests for this feature) require a PackageCacheError
instead. -/
theorem cache_path_traversal_not_rejected :
    get_cached_package_path ["home", ".mthds", "packages"]
        "../../etc/passwd" "1.0.0" =
      ["home", ".mthds", "packages", "..", "..", "etc", "passwd", "1.0.0"] ∧
    store_in_cache_final_path ["home", ".mthds", "packages"]
        "../../etc/passwd" "1.0.0" =
      ["home", ".mthds", "packages", "..", "..", "etc", "passwd", "1.0.0"] ∧
    resolveDots []
        ["home", ".mthds", "packages", "..", "..", "etc", "passwd", "1.0.0"] =
      ["home", "etc", "passwd", "1.0.0"] ∧
    (resolveDots []
        ["home", ".mthds", "packages", "..", "..", "etc", "passwd", "1.0.0"]).take 3
      ≠ ["home", ".mthds", "packages"] := by
  refine ⟨?_, ?_, ?_, ?_⟩ <;> decide

/-! ## TOML documents

A TOML-shaped document, as produced by tomllib.loads and consumed by the
bundle metadata extractor and the manifest reader/writer: strings, arrays
and tables (insertion-ordered, with unique keys as guaranteed by the TOML
format).  Other TOML scalar kinds play no role in the claims checked here.
The round trip through the external TOML text layer (tomlkit.dumps composed
with tomllib.loads) is modelled as the identity on this document tree. -/

inductive Toml where
  | str (s : String)
  | arr (items : List Toml)
  | table (entries : List (String × Toml))

/-- Key lookup in a table (dict access; TOML tables have unique keys). -/
def Toml.get? (entries : List (String × Toml)) (k : String) : Option Toml :=
  match entries.find? (fun p => p.1 == k) with
  | some p => some p.2
  | none => none

/-- Python str() applied to a TOML value.  For strings it is the string
itself; for non-string values it is their (always non-empty) repr, which no
claim depends on beyond its non-emptiness, so a fixed stand-in is used. -/
def pyStr : Toml → String
  | .str s => s
  | .arr _ => "[nonstring-value]"
  | .table _ => "[nonstring-value]"

/-! ## Bundle metadata extraction (src/mthds/packages/bundle_metadata.py) -/

/-- Embeds the header-table selection: the [header] sub-table when the
document has a dict-valued "header" key, otherwise the top-level table. -/
def selectedHeader (data : List (String × Toml)) : List (String × Toml) :=
  match Toml.get? data "header" with
  | some (.table h) => h
  | _ => data

/-- The domain string the extractor reads: the selected header's "domain"
value, stringified, with "" when absent. -/
def headerDomain (data : List (String × Toml)) : String :=
  pyStr ((Toml.get? (selectedHeader data) "domain").getD (.str ""))

/-- Embeds _collect_refs_from_pipe: outbound references from the four known
controller shapes of a pipe section, each with its context label. -/
def collectRefsFromPipe (pipe_code : String)
    (pipe_data : List (String × Toml)) : List (String × String) :=
  (match Toml.get? pipe_data "steps" with
   | some (.arr steps) =>
      steps.enum.filterMap fun iv =>
        match iv.2 with
        | .table step =>
          match Toml.get? step "pipe" with
          | some (.str r) =>
            some (r, "pipe." ++ pipe_code ++ ".steps[" ++ toString iv.1 ++ "].pipe")
          | _ => none
        | _ => none
   | _ => []) ++
  (match Toml.get? pipe_data "branch_pipe_code" with
   | some (.str r) => [(r, "pipe." ++ pipe_code ++ ".branch_pipe_code")]
   | _ => []) ++
  (match Toml.get? pipe_data "branches" with
   | some (.arr branches) =>
      branches.enum.filterMap fun iv =>
        match iv.2 with
        | .table branch =>
          match Toml.get? branch "pipe" with
          | some (.str r) =>
            some (r, "pipe." ++ pipe_code ++ ".branches[" ++ toString iv.1 ++ "].pipe")
          | _ => none
        | _ => none
   | _ => []) ++
  (match Toml.get? pipe_data "sub_pipes" with
   | some (.arr sub_pipes) =>
      sub_pipes.enum.filterMap fun iv =>
        match iv.2 with
        | .table sub_pipe =>
          match Toml.get? sub_pipe "pipe" with
          | some (.str r) =>
            some (r, "pipe." ++ pipe_code ++ ".sub_pipes[" ++ toString iv.1 ++ "].pipe")
          | _ => none
        | _ => none
   | _ => [])

/-- Embeds extract_bundle_metadata on an already-TOML-parsed document:
select the header table, require a non-empty stringified domain, collect
main_pipe, the pipe-section keys, and the outbound references. -/
def extract_bundle_metadata (path : String) (data : List (String × Toml)) :
    Except String BundleMetadata :=
  let domain := headerDomain data
  if domain == "" then .error ("No domain found in " ++ path)
  else
    let main_pipe := match Toml.get? (selectedHeader data) "main_pipe" with
      | none => none
      | some v => some (pyStr v)
    let pipe_codes := match Toml.get? data "pipe" with
      | some (.table pipe_section) => pipe_section.map (·.1)
      | _ => []
    let pipe_references := match Toml.get? data "pipe" with
      | some (.table pipe_section) =>
        pipe_section.flatMap fun kv =>
          match kv.2 with
          | .table pd => collectRefsFromPipe kv.1 pd
          | _ => []
      | _ => []
    .ok ⟨domain, main_pipe, pipe_codes, path, pipe_references⟩

/-- Claim C9 counterexample: a document whose top-level table carries a
non-empty domain but whose [header] sub-table is present and lacks one makes
the extractor fail, although the claim says the domain is taken from
whichever table contains it and extraction fails only when no non-empty
domain is found in either place. -/
theorem bundle_domain_header_shadows_top_level :
    extract_bundle_metadata "b.mthds"
        [("domain", .str "legal"), ("header", .table [])] =
      .error ("No domain found in b.mthds") ∧
    Toml.get? [("domain", .str "legal"), ("header", .table [])] "domain" =
      some (.str "legal") ∧
    ("legal" : String) ≠ "" :=
  ⟨rfl, rfl, by decide⟩

/-- Claim C9 (amended): extract_bundle_metadata reads the domain from the
[header] sub-table when a table-valued "header" key is present, and from the
top-level table otherwise; the selected table's stringified domain must be
non-empty, and extraction fails exactly when it is missing or empty there
(a present [header] without a domain fails even if the top level has one). -/
theorem bundle_domain_extraction (path : String) (data : List (String × Toml)) :
    (headerDomain data ≠ "" →
      ∃ md, extract_bundle_metadata path data = .ok md ∧
        md.domain = headerDomain data) ∧
    (headerDomain data = "" →
      extract_bundle_metadata path data = .error ("No domain found in " ++ path)) ∧
    (Toml.get? data "header" = none →
      headerDomain data = pyStr ((Toml.get? data "domain").getD (.str ""))) := by
  refine ⟨?_, ?_, ?_⟩
  · intro hne
    unfold extract_bundle_metadata
    rw [if_neg (by simp [hne])]
    exact ⟨_, rfl, rfl⟩
  · intro heq
    unfold extract_bundle_metadata
    rw [if_pos (by simp [heq])]
  · intro hnone
    unfold headerDomain selectedHeader
    rw [hnone]

/-- Witness for C9 at a concrete input: a bundle with its domain under
[header] extracts that domain, and one with an empty domain fails. -/
theorem bundle_domain_extraction_witness :
    (∃ md, extract_bundle_metadata "a.mthds"
        [("header", .table [("domain", .str "scoring")])] = .ok md ∧
      md.domain = headerDomain [("header", .table [("domain", .str "scoring")])]) ∧
    extract_bundle_metadata "c.mthds" [("domain", .str "")] =
      .error ("No domain found in c.mthds") :=
  ⟨(bundle_domain_extraction "a.mthds"
      [("header", .table [("domain", .str "scoring")])]).1 (by decide),
   (bundle_domain_extraction "c.mthds" [("domain", .str "")]).2.1 (by decide)⟩

/-! ## Lock file generation (src/mthds/package/lock_file.py)

compute_directory_hash is filesystem I/O from the generator's point of view;
it is passed here as a function from a package root to its hash string (it
is embedded and verified separately below for claim C7). -/

/-- A single locked dependency entry. -/
structure LockedPackage where
  version : String
  hash : String
  source : String
deriving DecidableEq, Repr

/-- The fields of a resolved dependency that lock generation reads
(ResolvedDependency in the resolver; the field alias of the source is named
depAlias, and package_root is the directory identified by its path string). -/
structure LockResolvedDep where
  depAlias : String
  address : String
  manifest : Option MethodsManifest
  package_root : String
deriving DecidableEq, Repr

/-- The root manifest's local-override address set: addresses of
dependencies declared with a path. -/
def localPathAddresses (manifest : MethodsManifest) : List String :=
  (manifest.dependencies.filter (fun d => d.path.isSome)).map (·.address)

/-- Insert-or-overwrite into an insertion-ordered dict (Python dict
assignment: an existing key keeps its position, a new key is appended). -/
def upsert (m : List (String × LockedPackage)) (k : String) (v : LockedPackage) :
    List (String × LockedPackage) :=
  if m.any (fun p => p.1 == k) then
    m.map (fun p => if p.1 == k then (k, v) else p)
  else m ++ [(k, v)]

/-- The generation loop of generate_lock_file: skip local-override
addresses, fail on a remote dependency without a manifest, otherwise record
version, hash and source under the dependency's address. -/
def lockEntriesGo (hashFn : String → String) (local_addresses : List String) :
    List LockResolvedDep → List (String × LockedPackage) →
      Except String (List (String × LockedPackage))
  | [], acc => .ok acc
  | r :: rest, acc =>
    if local_addresses.contains r.address then
      lockEntriesGo hashFn local_addresses rest acc
    else
      match r.manifest with
      | none =>
        .error ("Remote dependency " ++ r.depAlias ++ " (" ++ r.address ++
          ") has no manifest - cannot generate lock entry")
      | some man =>
        lockEntriesGo hashFn local_addresses rest
          (upsert acc r.address
            ⟨man.version, hashFn r.package_root, "https://" ++ r.address⟩)

/-- Embeds generate_lock_file: one lock entry per remote (non-local-path)
resolved dependency, keyed by address. -/
def generate_lock_file (hashFn : String → String) (manifest : MethodsManifest)
    (resolved_deps : List LockResolvedDep) :
    Except String (List (String × LockedPackage)) :=
  lockEntriesGo hashFn (localPathAddresses manifest) resolved_deps []

/-- If some remote dependency lacks a manifest, the generation loop fails. -/
theorem lockEntriesGo_error (hashFn : String → String) (localA : List String) :
    ∀ (deps : List LockResolvedDep) (acc : List (String × LockedPackage)),
      (∃ r ∈ deps, localA.contains r.address = false ∧ r.manifest = none) →
      ∃ msg, lockEntriesGo hashFn localA deps acc = .error msg := by
  intro deps
  induction deps with
  | nil => rintro acc ⟨r, hr, _⟩; simp at hr
  | cons d rest ih =>
    rintro acc ⟨r, hr, hrl, hrm⟩
    rcases List.mem_cons.mp hr with h | h
    · subst h
      unfold lockEntriesGo
      rw [hrl, hrm]
      exact ⟨_, rfl⟩
    · unfold lockEntriesGo
      by_cases hdl : localA.contains d.address = true
      · rw [hdl]
        exact ih acc ⟨r, h, hrl, hrm⟩
      · rw [Bool.not_eq_true] at hdl
        rw [hdl]
        cases hdm : d.manifest with
        | none => exact ⟨_, rfl⟩
        | some man => exact ih _ ⟨r, h, hrl, hrm⟩

/-- The remote lock entries a dependency list contributes, in order. -/
def remoteLockEntries (hashFn : String → String) (localA : List String)
    (deps : List LockResolvedDep) : List (String × LockedPackage) :=
  deps.filterMap fun r =>
    if localA.contains r.address then none
    else
      match r.manifest with
      | some man =>
        some (r.address, ⟨man.version, hashFn r.package_root, "https://" ++ r.address⟩)
      | none => none

/-- With manifests on every remote dependency and pairwise distinct
addresses disjoint from the accumulator keys, the generation loop appends
exactly the remote entries. -/
theorem lockEntriesGo_ok (hashFn : String → String) (localA : List String) :
    ∀ (deps : List LockResolvedDep) (acc : List (String × LockedPackage)),
      (∀ r ∈ deps, localA.contains r.address = false → r.manifest.isSome) →
      (deps.map (·.address)).Nodup →
      (∀ r ∈ deps, ∀ p ∈ acc, p.1 ≠ r.address) →
      lockEntriesGo hashFn localA deps acc =
        .ok (acc ++ remoteLockEntries hashFn localA deps) := by
  intro deps
  induction deps with
  | nil => intro acc _ _ _; simp [lockEntriesGo, remoteLockEntries]
  | cons d rest ih =>
    intro acc hman hnodup hdisj
    unfold lockEntriesGo
    by_cases hdl : localA.contains d.address = true
    · rw [hdl]
      have hdl' : d.address ∈ localA := List.elem_iff.mp hdl
      have : remoteLockEntries hashFn localA (d :: rest) =
          remoteLockEntries hashFn localA rest := by
        simp [remoteLockEntries, hdl']
      rw [this]
      exact ih acc (fun r hr => hman r (List.mem_cons_of_mem d hr))
        (List.nodup_cons.mp (by simpa using hnodup)).2
        (fun r hr p hp => hdisj r (List.mem_cons_of_mem d hr) p hp)
    · rw [Bool.not_eq_true] at hdl
      rw [hdl]
      cases hdm : d.manifest with
      | none =>
        have := hman d (List.mem_cons_self d rest) hdl
        rw [hdm] at this
        simp at this
      | some man =>
        have hupsert : upsert acc d.address
            ⟨man.version, hashFn d.package_root, "https://" ++ d.address⟩ =
            acc ++ [(d.address,
              ⟨man.version, hashFn d.package_root, "https://" ++ d.address⟩)] := by
          unfold upsert
          rw [if_neg]
          simp only [List.any_eq_true, not_exists, not_and, Bool.not_eq_true]
          intro p hp
          simp only [beq_eq_false_iff_ne, ne_eq]
          exact hdisj d (List.mem_cons_self d rest) p hp
        show lockEntriesGo hashFn localA rest
            (upsert acc d.address
              ⟨man.version, hashFn d.package_root, "https://" ++ d.address⟩) =
          Except.ok (acc ++ remoteLockEntries hashFn localA (d :: rest))
        rw [hupsert]
        have hdl' : ¬ d.address ∈ localA := by
          intro hmem
          have hc : localA.contains d.address = true := List.elem_iff.mpr hmem
          rw [hc] at hdl
          exact Bool.noConfusion hdl
        have hrest : remoteLockEntries hashFn localA (d :: rest) =
            (d.address,
              ⟨man.version, hashFn d.package_root, "https://" ++ d.address⟩) ::
              remoteLockEntries hashFn localA rest := by
          simp [remoteLockEntries, hdl', hdm]
        rw [hrest]
        rw [ih _ (fun r hr => hman r (List.mem_cons_of_mem d hr))
          (List.nodup_cons.mp (by simpa using hnodup)).2 ?_]
        · simp
        · intro r hr p hp
          rcases List.mem_append.mp hp with h | h
          · exact hdisj r (List.mem_cons_of_mem d hr) p h
          · simp at h
            rw [h]
            show d.address ≠ r.address
            have hnd : d.address ∉ List.map (fun x => x.address) rest :=
              (List.nodup_cons.mp (by simpa using hnodup)).1
            intro hcontra
            exact hnd (hcontra ▸ List.mem_map_of_mem (fun x => x.address) hr)

/-- A false Boolean contains test means non-membership. -/
theorem contains_false_notMem {l : List String} {a : String}
    (h : l.contains a = false) : a ∉ l := by
  intro hmem
  have h2 : l.contains a = true := by simpa using hmem
  rw [h2] at h
  exact Bool.noConfusion h

/-- The keys of the generated entries are exactly the addresses of the
non-local resolved dependencies, in order. -/
theorem remoteLockEntries_keys (hashFn : String → String) (localA : List String) :
    ∀ (deps : List LockResolvedDep),
      (∀ r ∈ deps, localA.contains r.address = false → r.manifest.isSome) →
      (remoteLockEntries hashFn localA deps).map (·.1) =
        (deps.filter (fun r => !localA.contains r.address)).map (·.address) := by
  intro deps
  induction deps with
  | nil => intro _; rfl
  | cons d rest ih =>
    intro hman
    have ihr := ih fun r hr => hman r (List.mem_cons_of_mem d hr)
    by_cases hdl : localA.contains d.address = true
    · have hdl' : d.address ∈ localA := List.elem_iff.mp hdl
      simp only [remoteLockEntries, List.filterMap_cons, List.filter_cons, hdl,
        Bool.not_true, hdl', if_true]
      simpa [remoteLockEntries] using ihr
    · rw [Bool.not_eq_true] at hdl
      have hdl' : ¬ d.address ∈ localA := contains_false_notMem hdl
      have hsome := hman d (List.mem_cons_self d rest) hdl
      cases hdm : d.manifest with
      | none => rw [hdm] at hsome; exact absurd hsome (by simp)
      | some man =>
        simp only [remoteLockEntries, List.filterMap_cons, List.filter_cons, hdl,
          Bool.not_false, if_true, hdm, Bool.false_eq_true, if_false]
        simp only [List.map_cons]
        exact congrArg (List.cons d.address)
          (by simpa [remoteLockEntries] using ihr)

/-- Claim C5 (lock-file generation is the remote subset of the resolved
graph): with pairwise distinct resolved addresses, generation fails whenever
some resolved dependency outside the root manifest's local-path overrides
has no manifest; otherwise it succeeds and produces exactly one entry per
non-local resolved dependency, keyed by its address, carrying the
dependency's manifest version, the directory hash of its package root, and
the source "https://" followed by the address. -/
theorem generate_lock_file_remote_subset
    (hashFn : String → String) (manifest : MethodsManifest)
    (resolved_deps : List LockResolvedDep)
    (hnodup : (resolved_deps.map (·.address)).Nodup) :
    ((∃ r ∈ resolved_deps,
        (localPathAddresses manifest).contains r.address = false ∧
        r.manifest = none) →
      ∃ msg, generate_lock_file hashFn manifest resolved_deps = .error msg) ∧
    ((∀ r ∈ resolved_deps,
        (localPathAddresses manifest).contains r.address = false →
        r.manifest.isSome) →
      generate_lock_file hashFn manifest resolved_deps =
        .ok (remoteLockEntries hashFn (localPathAddresses manifest)
          resolved_deps) ∧
      (remoteLockEntries hashFn (localPathAddresses manifest)
          resolved_deps).map (·.1) =
        (resolved_deps.filter
          (fun r => !(localPathAddresses manifest).contains r.address)).map
            (·.address) ∧
      (∀ r ∈ resolved_deps, ∀ man, r.manifest = some man →
        (localPathAddresses manifest).contains r.address = false →
        (r.address,
          (⟨man.version, hashFn r.package_root,
            "https://" ++ r.address⟩ : LockedPackage)) ∈
          remoteLockEntries hashFn (localPathAddresses manifest)
            resolved_deps) ∧
      (∀ p ∈ remoteLockEntries hashFn (localPathAddresses manifest)
          resolved_deps,
        ∃ r ∈ resolved_deps, ∃ man, r.manifest = some man ∧
          (localPathAddresses manifest).contains r.address = false ∧
          p = (r.address,
            ⟨man.version, hashFn r.package_root, "https://" ++ r.address⟩))) := by
  constructor
  · exact fun h => lockEntriesGo_error hashFn (localPathAddresses manifest)
      resolved_deps [] h
  · intro hman
    refine ⟨?_, remoteLockEntries_keys hashFn _ resolved_deps hman, ?_, ?_⟩
    · have := lockEntriesGo_ok hashFn (localPathAddresses manifest)
        resolved_deps [] hman hnodup (by simp)
      simpa [generate_lock_file] using this
    · intro r hr man hm hl
      unfold remoteLockEntries
      apply List.mem_filterMap.mpr
      exact ⟨r, hr, by simp [contains_false_notMem hl, hm]⟩
    · intro p hp
      unfold remoteLockEntries at hp
      rcases List.mem_filterMap.mp hp with ⟨r, hr, hfr⟩
      by_cases hl : (localPathAddresses manifest).contains r.address = true
      · rw [hl] at hfr
        simp at hfr
      · rw [Bool.not_eq_true] at hl
        rw [hl] at hfr
        simp only [Bool.false_eq_true, if_false] at hfr
        cases hm : r.manifest with
        | none => rw [hm] at hfr; simp at hfr
        | some man =>
          rw [hm] at hfr
          simp only [Option.some.injEq] at hfr
          exact ⟨r, hr, man, hm, hl, hfr.symm⟩

/-- Witness for C5 at a concrete input: one remote dependency with a
manifest produces exactly its entry, while a dependency whose address is
declared with a local path override in the root manifest is skipped even
though it has no manifest. -/
theorem generate_lock_file_remote_subset_witness :
    generate_lock_file (fun root => "hash-of-" ++ root)
        ⟨"example.com/root", "1.0.0", "root",
          [⟨"github.com/org/loc", "1.0.0", "locdep", some "../loc"⟩], []⟩
        [⟨"dep", "github.com/org/pkg",
            some ⟨"github.com/org/pkg", "1.2.0", "d", [], []⟩, "/cache/pkg"⟩,
         ⟨"locdep", "github.com/org/loc", none, "/loc"⟩] =
      .ok (remoteLockEntries (fun root => "hash-of-" ++ root)
        (localPathAddresses
          ⟨"example.com/root", "1.0.0", "root",
            [⟨"github.com/org/loc", "1.0.0", "locdep", some "../loc"⟩], []⟩)
        [⟨"dep", "github.com/org/pkg",
            some ⟨"github.com/org/pkg", "1.2.0", "d", [], []⟩, "/cache/pkg"⟩,
         ⟨"locdep", "github.com/org/loc", none, "/loc"⟩]) ∧
    remoteLockEntries (fun root => "hash-of-" ++ root)
        (localPathAddresses
          ⟨"example.com/root", "1.0.0", "root",
            [⟨"github.com/org/loc", "1.0.0", "locdep", some "../loc"⟩], []⟩)
        [⟨"dep", "github.com/org/pkg",
            some ⟨"github.com/org/pkg", "1.2.0", "d", [], []⟩, "/cache/pkg"⟩,
         ⟨"locdep", "github.com/org/loc", none, "/loc"⟩] =
      [("github.com/org/pkg",
        ⟨"1.2.0", "hash-of-/cache/pkg", "https://github.com/org/pkg"⟩)] :=
  ⟨((generate_lock_file_remote_subset (fun root => "hash-of-" ++ root)
      ⟨"example.com/root", "1.0.0", "root",
        [⟨"github.com/org/loc", "1.0.0", "locdep", some "../loc"⟩], []⟩
      [⟨"dep", "github.com/org/pkg",
          some ⟨"github.com/org/pkg", "1.2.0", "d", [], []⟩, "/cache/pkg"⟩,
       ⟨"locdep", "github.com/org/loc", none, "/loc"⟩]
      (by decide)).2 (by decide)).1, by decide⟩

/-! ## SHA-256 (the hashlib.sha256 used by compute_directory_hash)

A full executable SHA-256 over byte lists, with 32-bit words as naturals
reduced modulo 2^32. -/

/-- 32-bit rotate right. -/
def rotr32 (n w : Nat) : Nat := ((w >>> n) ||| (w <<< (32 - n))) % 4294967296

/-- The SHA-256 round constants. -/
def sha256K : List Nat :=
  [1116352408, 1899447441, 3049323471, 3921009573,
   961987163, 1508970993, 2453635748, 2870763221,
   3624381080, 310598401, 607225278, 1426881987,
   1925078388, 2162078206, 2614888103, 3248222580,
   3835390401, 4022224774, 264347078, 604807628,
   770255983, 1249150122, 1555081692, 1996064986,
   2554220882, 2821834349, 2952996808, 3210313671,
   3336571891, 3584528711, 113926993, 338241895,
   666307205, 773529912, 1294757372, 1396182291,
   1695183700, 1986661051, 2177026350, 2456956037,
   2730485921, 2820302411, 3259730800, 3345764771,
   3516065817, 3600352804, 4094571909, 275423344,
   430227734, 506948616, 659060556, 883997877,
   958139571, 1322822218, 1537002063, 1747873779,
   1955562222, 2024104815, 2227730452, 2361852424,
   2428436474, 2756734187, 3204031479, 3329325298]

/-- The SHA-256 initial state. -/
def sha256H0 : List Nat :=
  [1779033703, 3144134277, 1013904242, 2773480762,
   1359893119, 2600822924, 528734635, 1541459225]

/-- Big-endian 8-byte encoding of a natural number. -/
def bigEndian8 (n : Nat) : List Nat :=
  (List.range 8).map fun i => (n >>> ((7 - i) * 8)) % 256

/-- SHA-256 message padding: a 0x80 byte, zeros to 56 mod 64, then the
bit length as 8 big-endian bytes. -/
def padMessage (msg : List Nat) : List Nat :=
  let L := msg.length
  let padZeros := (119 - (L % 64)) % 64
  msg ++ [0x80] ++ List.replicate padZeros 0 ++ bigEndian8 (L * 8)

/-- Split a byte list into 64-byte blocks. -/
def toBlocks (l : List Nat) : List (List Nat) :=
  if h : l = [] then []
  else
    l.take 64 :: toBlocks (l.drop 64)
termination_by l.length
decreasing_by
  rw [List.length_drop]
  exact Nat.sub_lt (List.length_pos.mpr h) (by norm_num)

/-- The i-th 32-bit big-endian word of a block. -/
def wordOf (block : List Nat) (i : Nat) : Nat :=
  block.getD (4 * i) 0 * 16777216 + block.getD (4 * i + 1) 0 * 65536 +
    block.getD (4 * i + 2) 0 * 256 + block.getD (4 * i + 3) 0

/-- The two small sigma functions of the message schedule. -/
def smallSigma0 (x : Nat) : Nat := rotr32 7 x ^^^ rotr32 18 x ^^^ (x >>> 3)

/-- Second small sigma. -/
def smallSigma1 (x : Nat) : Nat := rotr32 17 x ^^^ rotr32 19 x ^^^ (x >>> 10)

/-- The two big sigma functions of the compression. -/
def bigSigma0 (x : Nat) : Nat := rotr32 2 x ^^^ rotr32 13 x ^^^ rotr32 22 x

/-- Second big sigma. -/
def bigSigma1 (x : Nat) : Nat := rotr32 6 x ^^^ rotr32 11 x ^^^ rotr32 25 x

/-- Extend the 16 block words to the 64-entry message schedule. -/
def extendSchedule (w : List Nat) : List Nat :=
  (List.range 48).foldl
    (fun acc _ =>
      let i := acc.length
      acc ++ [(smallSigma1 (acc.getD (i - 2) 0) + acc.getD (i - 7) 0 +
        smallSigma0 (acc.getD (i - 15) 0) + acc.getD (i - 16) 0) % 4294967296])
    w

/-- One SHA-256 compression round on the eight-word state. -/
def compressRound (st : List Nat) (wk : Nat × Nat) : List Nat :=
  match st with
  | [a, b, c, d, e, f, g, h] =>
    let ch := (e &&& f) ^^^ ((e ^^^ 4294967295) &&& g)
    let maj := (a &&& b) ^^^ (a &&& c) ^^^ (b &&& c)
    let t1 := (h + bigSigma1 e + ch + wk.2 + wk.1) % 4294967296
    let t2 := (bigSigma0 a + maj) % 4294967296
    [(t1 + t2) % 4294967296, a, b, c, (d + t1) % 4294967296, e, f, g]
  | other => other

/-- Process one 64-byte block: run 64 rounds and add the result into the
running state, word by word, modulo 2^32. -/
def processBlock (H : List Nat) (block : List Nat) : List Nat :=
  let w0 := (List.range 16).map (wordOf block)
  let W := extendSchedule w0
  let st := (W.zip sha256K).foldl compressRound H
  (H.zip st).map fun p => (p.1 + p.2) % 4294967296

/-- SHA-256 of a byte list, as the list of eight 32-bit state words. -/
def sha256Words (msg : List Nat) : List Nat :=
  (toBlocks (padMessage msg)).foldl processBlock sha256H0

/-- One lowercase hexadecimal digit. -/
def hexDigit (n : Nat) : Char :=
  if n < 10 then Char.ofNat (48 + n) else Char.ofNat (87 + n)

/-- Eight hex characters of a 32-bit word, most significant first. -/
def hex8 (w : Nat) : List Char :=
  (List.range 8).map fun i => hexDigit ((w >>> ((7 - i) * 4)) % 16)

/-- The lowercase hex digest of a byte list (hashlib hexdigest). -/
def sha256Hex (msg : List Nat) : String :=
  String.mk ((sha256Words msg).flatMap hex8)

/-- Lowercase hexadecimal character test. -/
def isHexChar (c : Char) : Bool :=
  ('0' ≤ c && c ≤ '9') || ('a' ≤ c && c ≤ 'f')

/-- A compression round preserves the state length. -/
theorem compressRound_length (st : List Nat) (wk : Nat × Nat) :
    (compressRound st wk).length = st.length := by
  rcases st with _ | ⟨a, _ | ⟨b, _ | ⟨c, _ | ⟨d, _ | ⟨e, _ | ⟨f, _ | ⟨g, _ | ⟨h, rest⟩⟩⟩⟩⟩⟩⟩⟩ <;>
    first
      | rfl
      | (cases rest <;> rfl)

/-- Folding compression rounds preserves the state length. -/
theorem foldl_compressRound_length (l : List (Nat × Nat)) :
    ∀ (st : List Nat), (l.foldl compressRound st).length = st.length := by
  induction l with
  | nil => intro st; rfl
  | cons x xs ih =>
    intro st
    rw [List.foldl_cons, ih, compressRound_length]

/-- Processing a block preserves the eight-word state length. -/
theorem processBlock_length (H : List Nat) (block : List Nat) :
    (processBlock H block).length = H.length := by
  unfold processBlock
  rw [List.length_map, List.length_zip, foldl_compressRound_length]
  simp

/-- The SHA-256 state always has eight words. -/
theorem sha256Words_length (msg : List Nat) : (sha256Words msg).length = 8 := by
  unfold sha256Words
  have : ∀ (bs : List (List Nat)) (H : List Nat),
      (bs.foldl processBlock H).length = H.length := by
    intro bs
    induction bs with
    | nil => intro H; rfl
    | cons b rest ih => intro H; rw [List.foldl_cons, ih, processBlock_length]
  rw [this]
  rfl

/-- Each hex digit of a nibble is a lowercase hex character. -/
theorem hexDigit_isHex (n : Nat) (h : n < 16) : isHexChar (hexDigit n) = true := by
  interval_cases n <;> decide

/-- All characters of a word's hex rendering are hex, and there are eight. -/
theorem hex8_spec (w : Nat) :
    (hex8 w).length = 8 ∧ ∀ c ∈ hex8 w, isHexChar c = true := by
  constructor
  · simp [hex8]
  · intro c hc
    simp only [hex8, List.mem_map] at hc
    obtain ⟨i, _, hi⟩ := hc
    rw [← hi]
    exact hexDigit_isHex _ (Nat.mod_lt _ (by norm_num))

/-- The digest of any message has 64 characters, all lowercase hex. -/
theorem sha256Hex_spec (msg : List Nat) :
    (sha256Hex msg).length = 64 ∧
      ∀ c ∈ (sha256Hex msg).toList, isHexChar c = true := by
  have hlen : ∀ (ws : List Nat), (ws.flatMap hex8).length = 8 * ws.length := by
    intro ws
    induction ws with
    | nil => rfl
    | cons w rest ih =>
      rw [List.flatMap_cons, List.length_append, ih, (hex8_spec w).1,
        List.length_cons]
      ring
  constructor
  · show (String.mk ((sha256Words msg).flatMap hex8)).length = 64
    show ((sha256Words msg).flatMap hex8).length = 64
    rw [hlen, sha256Words_length]
  · intro c hc
    have hc' : c ∈ (sha256Words msg).flatMap hex8 := hc
    rcases List.mem_flatMap.mp hc' with ⟨w, _, hw⟩
    exact (hex8_spec w).2 c hw

/-! ## Directory hashing (src/mthds/package/lock_file.py, compute_directory_hash)

A directory is the list of its regular files, each given by the components
of its path relative to the directory root (Path.relative_to(...).parts) and
its raw bytes; the list order models the filesystem enumeration order of
rglob. -/

/-- A regular file under the hashed directory. -/
structure DirFile where
  parts : List String
  content : List Nat
deriving DecidableEq, Repr

/-- POSIX-normalized relative path: components joined by "/"
(Path.as_posix). -/
def asPosix (parts : List String) : String := String.intercalate "/" parts

/-- UTF-8 bytes of a string (str.encode used by hasher.update). -/
def utf8Bytes (s : String) : List Nat := s.toUTF8.toList.map (·.toNat)

/-- Embeds compute_directory_hash: keep the regular files without a ".git"
component, sort by POSIX-normalized relative path, feed one SHA-256 hasher
with each file's relative path bytes then its content bytes, and prefix the
hex digest with "sha256:". -/
def compute_directory_hash (files : List DirFile) : String :=
  "sha256:" ++ sha256Hex
    (((files.filter fun f => !f.parts.contains ".git").insertionSort
        (fun a b => asPosix a.parts ≤ asPosix b.parts)).foldl
      (fun acc f => acc ++ utf8Bytes (asPosix f.parts) ++ f.content) [])

/-- Feeding a hasher file by file is hashing the concatenation. -/
theorem foldl_feed_eq_flatMap :
    ∀ (l : List DirFile) (acc : List Nat),
      l.foldl (fun acc f => acc ++ utf8Bytes (asPosix f.parts) ++ f.content) acc =
        acc ++ l.flatMap (fun f => utf8Bytes (asPosix f.parts) ++ f.content) := by
  intro l
  induction l with
  | nil => intro acc; simp
  | cons f rest ih =>
    intro acc
    rw [List.foldl_cons, ih, List.flatMap_cons]
    simp

/-- Claim C7: the directory hash is "sha256:" followed by 64 lowercase hex
characters; it equals the SHA-256 digest of the files' POSIX-normalized
relative paths (UTF-8) concatenated with their raw bytes in sorted path
order; and appending files whose relative paths contain a ".git" component
(adding a .git subtree) leaves it unchanged, because every such path is
skipped. -/
theorem directory_hash_spec (files gitFiles : List DirFile)
    (hgit : ∀ g ∈ gitFiles, ".git" ∈ g.parts) :
    (∃ hex : String, compute_directory_hash files = "sha256:" ++ hex ∧
      hex.length = 64 ∧ ∀ c ∈ hex.toList, isHexChar c = true) ∧
    compute_directory_hash files =
      "sha256:" ++ sha256Hex
        (((files.filter fun f => !f.parts.contains ".git").insertionSort
            (fun a b => asPosix a.parts ≤ asPosix b.parts)).flatMap
          fun f => utf8Bytes (asPosix f.parts) ++ f.content) ∧
    compute_directory_hash (files ++ gitFiles) = compute_directory_hash files := by
  refine ⟨⟨sha256Hex _, rfl, (sha256Hex_spec _).1, (sha256Hex_spec _).2⟩, ?_, ?_⟩
  · unfold compute_directory_hash
    rw [foldl_feed_eq_flatMap]
    rw [List.nil_append]
  · unfold compute_directory_hash
    have hfilter : (files ++ gitFiles).filter (fun f => !f.parts.contains ".git") =
        files.filter (fun f => !f.parts.contains ".git") := by
      rw [List.filter_append]
      have : gitFiles.filter (fun f => !f.parts.contains ".git") = [] := by
        rw [List.filter_eq_nil_iff]
        intro g hg
        have hmem := hgit g hg
        simp [hmem]
      rw [this, List.append_nil]
    rw [hfilter]

/-- Witness for C7 at a concrete input: adding a .git/config file to a
one-file directory leaves the hash unchanged, and the hash has the
sha256-prefixed 64-hex shape. -/
theorem directory_hash_spec_witness :
    (∃ hex : String,
      compute_directory_hash [⟨["a.txt"], [104, 105]⟩] = "sha256:" ++ hex ∧
      hex.length = 64 ∧ ∀ c ∈ hex.toList, isHexChar c = true) ∧
    compute_directory_hash
        ([⟨["a.txt"], [104, 105]⟩] ++ [⟨[".git", "config"], [99]⟩]) =
      compute_directory_hash [⟨["a.txt"], [104, 105]⟩] := by
  have h := directory_hash_spec [⟨["a.txt"], [104, 105]⟩]
    [⟨[".git", "config"], [99]⟩] (by decide)
  exact ⟨h.1, h.2.2⟩

/-! ## Manifest schema validators (src/mthds/packages/manifest.py and the
validation helpers of mthds/package/manifest/validation.py, whose content
the packages variant imports) -/

/-- Letter check. -/
def isAlphaCh (c : Char) : Bool :=
  ('a' ≤ c && c ≤ 'z') || ('A' ≤ c && c ≤ 'Z')

/-- Character class of the address pattern before the first slash. -/
def isAddrCh (c : Char) : Bool :=
  isAlphaCh c || isDigitCh c || c = '.' || c = '_' || c = '-'

/-- Character class of the address pattern after the first slash. -/
def isAddrTailCh (c : Char) : Bool := isAddrCh c || c = '/'

/-- Split a character list at the first occurrence of a separator. -/
def splitFirst (sep : Char) : List Char → Option (List Char × List Char)
  | [] => none
  | c :: rest =>
    if c = sep then some ([], rest)
    else
      match splitFirst sep rest with
      | some (a, b) => some (c :: a, b)
      | none => none

/-- Embeds the ADDRESS_PATTERN regex: one or more address characters
containing a dot with at least one character on each side, then a slash,
then one or more tail characters (the dot condition renders the regex's
backtracking A+ dot A+ prefix). -/
def is_valid_address (address : String) : Bool :=
  match splitFirst '/' address.toList with
  | none => false
  | some (pre, suf) =>
    !pre.isEmpty && pre.all isAddrCh &&
      ((pre.drop 1).dropLast).contains '.' &&
      !suf.isEmpty && suf.all isAddrTailCh

/-- Numeric literal of semver: 0, or a nonzero digit followed by digits. -/
def isNumStr : List Char → Bool
  | [] => false
  | ['0'] => true
  | c :: rest => ('1' ≤ c && c ≤ '9') && rest.all isDigitCh

/-- Identifier character of semver pre-release and build fields. -/
def isIdentCh (c : Char) : Bool := isDigitCh c || isAlphaCh c || c = '-'

/-- A pre-release identifier: numeric without leading zero, or any
non-purely-numeric run of identifier characters. -/
def isPreId (l : List Char) : Bool :=
  !l.isEmpty && l.all isIdentCh && (!l.all isDigitCh || isNumStr l)

/-- A build identifier: a non-empty run of identifier characters. -/
def isBuildId (l : List Char) : Bool := !l.isEmpty && l.all isIdentCh

/-- Embeds the SEMVER_PATTERN regex: MAJOR.MINOR.PATCH with optional
pre-release (after the first hyphen) and build metadata (after the first
plus, which can only start the build part). -/
def is_valid_semver (version : String) : Bool :=
  match splitFirst '+' version.toList with
  | some (main, build) => isSemverMain main && (splitOnDotCh build).all isBuildId
  | none => isSemverMain version.toList
where
  isSemverMain (main : List Char) : Bool :=
    match splitFirst '-' main with
    | some (core, pre) => isSemverCore core && (splitOnDotCh pre).all isPreId
    | none => isSemverCore main
  isSemverCore (core : List Char) : Bool :=
    match splitOnDotCh core with
    | [ma, mi, pa] => isNumStr ma && isNumStr mi && isNumStr pa
    | _ => false

/-- Strip leading and trailing whitespace from a character list
(Python str.strip). -/
def stripChars (l : List Char) : List Char :=
  ((l.dropWhile Char.isWhitespace).reverse.dropWhile Char.isWhitespace).reverse

/-- Python str.strip on strings. -/
def pyStrip (s : String) : String := String.mk (stripChars s.toList)

/-- Drop a comparison operator prefix of a single version constraint. -/
def dropConstraintOp : List Char → List Char
  | '>' :: '=' :: r => r
  | '<' :: '=' :: r => r
  | '=' :: '=' :: r => r
  | '!' :: '=' :: r => r
  | '^' :: r => r
  | '~' :: r => r
  | '>' :: r => r
  | '<' :: r => r
  | l => l

/-- Numeric component or wildcard star of a constraint. -/
def isNumOrStar (l : List Char) : Bool := l = ['*'] || isNumStr l

/-- One constraint of the VERSION_CONSTRAINT_PATTERN: the bare wildcard, or
an optional operator, MAJOR with up to two more numeric-or-star components,
and an optional pre-release. -/
def isSingleConstraint (l : List Char) : Bool :=
  if l = ['*'] then true
  else
    let rest := dropConstraintOp l
    let check := fun (nums : List Char) =>
      match splitOnDotCh nums with
      | [ma] => isNumStr ma
      | [ma, mi] => isNumStr ma && isNumOrStar mi
      | [ma, mi, pa] => isNumStr ma && isNumOrStar mi && isNumOrStar pa
      | _ => false
    match splitFirst '-' rest with
    | some (nums, pre) => check nums && (splitOnDotCh pre).all isPreId
    | none => check rest

/-- Embeds is_valid_version_constraint: the (stripped) constraint is a
comma-separated list of single constraints, each allowing surrounding
whitespace. -/
def is_valid_version_constraint (constraint : String) : Bool :=
  (splitOnCh ',' (pyStrip constraint).toList).all fun piece =>
    isSingleConstraint (stripChars piece)


/-- A successful cross-package split returns a strictly shorter remainder. -/
theorem splitCrossPackageMark_shorter (l : List Char) :
    ∀ a b, splitCrossPackageMark l = some (a, b) → b.length < l.length := by
  induction l using splitCrossPackageMark.induct with
  | case1 rest =>
    intro a b h
    simp [splitCrossPackageMark] at h
    rw [← h.2]
    simp
    omega
  | case2 c rest hne a' b' hab ih =>
    intro a b h
    rw [splitCrossPackageMark.eq_2 c rest hne] at h
    rw [hab] at h
    simp at h
    have := ih a' b' hab
    rw [← h.2]
    simp
    omega
  | case3 c rest hne hnone ih =>
    intro a b h
    rw [splitCrossPackageMark.eq_2 c rest hne] at h
    rw [hnone] at h
    simp at h
  | case4 =>
    intro a b h
    simp [splitCrossPackageMark] at h

/-- Embeds is_domain_code_valid on character lists: unwrap any cross-package
prefix, reject empty strings, edge dots and consecutive dots, and require
every dot-separated segment to be snake_case. -/
def domainCodeValidChars (l : List Char) : Bool :=
  match hs : splitCrossPackageMark l with
  | some (_, remainder) => domainCodeValidChars remainder
  | none =>
    if l.isEmpty then false
    else if l.head? = some '.' || l.getLast? = some '.' then false
    else if hasDoubleDot l then false
    else (splitOnDotCh l).all isSnakeChars
termination_by l.length
decreasing_by
  exact splitCrossPackageMark_shorter l _ _ hs

/-- Embeds is_domain_code_valid on strings. -/
def is_domain_code_valid (code : String) : Bool :=
  domainCodeValidChars code.toList

/-- Embeds is_pipe_code_valid. -/
def is_pipe_code_valid (pipe_code : String) : Bool := is_snake_case pipe_code

/-- Unicode Cc control character test (the display-name validator). -/
def pyIsControl (c : Char) : Bool :=
  c.toNat < 32 || (127 ≤ c.toNat && c.toNat ≤ 159)

/-- The pydantic construction of a PackageDependency: field validators for
address, version constraint and snake_case alias. -/
def pydanticDependency (address version aliasStr : String)
    (path : Option String) : Except String PackageDependency :=
  if !is_valid_address address then .error "Invalid package address"
  else if !is_valid_version_constraint version then .error "Invalid version constraint"
  else if !is_snake_case aliasStr then .error "Invalid dependency alias"
  else .ok ⟨address, version, aliasStr, path⟩

/-- The pydantic construction of a DomainExports entry: valid non-reserved
domain path, snake_case pipe names. -/
def pydanticDomainExports (domain_path : String) (pipes : List String) :
    Except String DomainExports :=
  if !is_domain_code_valid domain_path then .error "Invalid domain path"
  else if is_reserved_domain_path domain_path then .error "Reserved domain"
  else if !pipes.all is_pipe_code_valid then .error "Invalid pipe name"
  else .ok ⟨domain_path, pipes⟩

/-- The METHODS.toml package manifest model
(src/mthds/packages/manifest.py). -/
structure MthdsPackageManifest where
  address : String
  display_name : Option String
  version : String
  description : String
  authors : List String
  license : Option String
  mthds_version : Option String
  dependencies : List PackageDependency
  exports : List DomainExports
deriving DecidableEq, Repr

/-- The pydantic construction of an MthdsPackageManifest from already-built
dependency and exports entries: all field validators (with their stripping
normalizations) plus the unique-alias model validator.  Nested model
instances are not re-validated, matching pydantic. -/
def pydanticManifest (address : String) (display_name : Option String)
    (version description : String) (authors : List String)
    (license mthds_version : Option String)
    (dependencies : List PackageDependency) (exports : List DomainExports) :
    Except String MthdsPackageManifest :=
  if !is_valid_address address then .error "Invalid package address"
  else if !is_valid_semver version then .error "Invalid version"
  else if (match display_name with
      | none => false
      | some d => pyStrip d == "") then .error "Display name empty"
  else if (match display_name with
      | none => false
      | some d => 128 < (pyStrip d).length) then .error "Display name too long"
  else if (match display_name with
      | none => false
      | some d => (pyStrip d).toList.any pyIsControl) then
    .error "Display name control characters"
  else if pyStrip description == "" then .error "Description empty"
  else if authors.any (fun a => pyStrip a == "") then .error "Author empty"
  else if (match license with
      | none => false
      | some l => pyStrip l == "") then .error "License empty"
  else if (match mthds_version with
      | none => false
      | some v => !is_valid_version_constraint v) then
    .error "Invalid mthds_version constraint"
  else if !(dependencies.map (·.depAlias)).Nodup then .error "Duplicate alias"
  else
    .ok ⟨address, display_name.map pyStrip, version, pyStrip description,
      authors, license, mthds_version, dependencies, exports⟩

/-! ## Manifest TOML writer and reader (src/mthds/packages/manifest_parser.py)

The tomlkit document is the Toml table tree; tomlkit.dumps followed by
tomllib.loads is modelled as the identity on that tree (whitespace such as
tomlkit.nl() carries no document content). -/

/-- tomlkit add: append a key, raising on duplicates. -/
def tomlAdd (t : List (String × Toml)) (k : String) (v : Toml) :
    Except String (List (String × Toml)) :=
  if t.any (fun p => p.1 == k) then .error ("duplicate key " ++ k)
  else .ok (t ++ [(k, v)])

/-- Replace the value of an existing key in place. -/
def tomlUpdate (t : List (String × Toml)) (k : String) (v : Toml) :
    List (String × Toml) :=
  t.map fun p => if p.1 == k then (k, v) else p

/-- The exports serializer's navigation: walk the segment path creating
tables as needed, then add the pipes array at the final node (descending
into a non-table or re-adding an existing pipes key is an error, as the
corresponding tomlkit operations raise). -/
def navAdd (t : List (String × Toml)) (segments : List String)
    (pipes : List String) : Except String (List (String × Toml)) :=
  match segments with
  | [] => tomlAdd t "pipes" (Toml.arr (pipes.map .str))
  | seg :: rest =>
    match Toml.get? t seg with
    | none =>
      match navAdd [] rest pipes with
      | .ok sub => .ok (t ++ [(seg, .table sub)])
      | .error e => .error e
    | some (.table sub) =>
      match navAdd sub rest pipes with
      | .ok sub' => .ok (tomlUpdate t seg (.table sub'))
      | .error e => .error e
    | some _ => .error "navigated into a non-table"

/-- The dot-separated segments of a domain path (str.split on "."). -/
def domainSegments (domain_path : String) : List String :=
  (splitOnDotCh domain_path.toList).map String.mk

/-- Build the nested exports super-table from the flat exports list. -/
def serializeExports (exports : List DomainExports) :
    Except String (List (String × Toml)) :=
  exports.foldlM
    (fun t e => navAdd t (domainSegments e.domain_path) e.pipes) []

/-- The [package] table of the serialized manifest: required fields plus
only the populated optional fields, in source order. -/
def packageTable (m : MthdsPackageManifest) : List (String × Toml) :=
  [("address", Toml.str m.address)] ++
  (match m.display_name with
   | some d => [("display_name", Toml.str d)]
   | none => []) ++
  [("version", Toml.str m.version), ("description", Toml.str m.description)] ++
  (if m.authors.isEmpty then []
   else [("authors", Toml.arr (m.authors.map Toml.str))]) ++
  (match m.license with
   | some l => [("license", Toml.str l)]
   | none => []) ++
  (match m.mthds_version with
   | some v => [("mthds_version", Toml.str v)]
   | none => [])

/-- One dependency as an inline table. -/
def dependencyTable (d : PackageDependency) : Toml :=
  Toml.table ([("address", Toml.str d.address), ("version", Toml.str d.version)] ++
    (match d.path with
     | some p => [("path", Toml.str p)]
     | none => []))

/-- Embeds serialize_manifest_to_toml: the [package] table, then the
[dependencies] table keyed by alias when non-empty, then the nested
[exports] super-table when non-empty. -/
def serialize_manifest_to_toml (m : MthdsPackageManifest) :
    Except String (List (String × Toml)) := do
  let deps ←
    if m.dependencies.isEmpty then pure []
    else do
      let t ← m.dependencies.foldlM
        (fun t d => tomlAdd t d.depAlias (dependencyTable d)) []
      pure [("dependencies", Toml.table t)]
  let exps ←
    if m.exports.isEmpty then pure []
    else do
      let t ← serializeExports m.exports
      pure [("exports", Toml.table t)]
  pure ([("package", Toml.table (packageTable m))] ++ deps ++ exps)

/-- The cast of a TOML array to a list of strings.  Python's cast performs
no check; a non-string element crashes later inside the per-element
validators (an uncaught TypeError), modelled as an error outcome. -/
def asStringList : List Toml → Except String (List String)
  | [] => .ok []
  | .str s :: rest =>
    match asStringList rest with
    | .ok r => .ok (s :: r)
    | .error e => .error e
  | _ :: _ => .error "expected a string"

/-- Parse one [dependencies] entry: inject the key as the alias, forbid
unknown keys (pydantic extra=forbid; an explicit alias key is permitted and
overwritten), require string address and version, and run the dependency
validators. -/
def parseDependencyTable (aliasStr : String) (dt : List (String × Toml)) :
    Except String PackageDependency :=
  if !(dt.all fun p => p.1 == "address" || p.1 == "version" || p.1 == "path" ||
      p.1 == "alias") then
    .error "unexpected dependency key"
  else
    match Toml.get? dt "address", Toml.get? dt "version" with
    | some (.str a), some (.str v) =>
      match Toml.get? dt "path" with
      | none => pydanticDependency a v aliasStr none
      | some (.str p) => pydanticDependency a v aliasStr (some p)
      | some _ => .error "path must be a string"
    | _, _ => .error "missing or non-string address or version"

/-- Dotted path extension (current_path of the exports walk). -/
def pathJoin (pre key : String) : String :=
  if pre == "" then key else pre ++ "." ++ key

mutual
/-- The _walk_exports_table loop: iterate all entries of a table level. -/
def walkEntriesA : List (String × Toml) → String →
    Except String (List DomainExports)
  | [], _ => .ok []
  | (key, value) :: rest, pre =>
    match walkValue key value pre with
    | .error e => .error e
    | .ok here =>
      match walkEntriesA rest pre with
      | .error e => .error e
      | .ok more => .ok (here ++ more)

/-- Handle one key: a table with a pipes array is a leaf domain (emitting a
DomainExports and then walking its non-pipes sub-tables); a table without
pipes is walked deeper; non-table values are skipped. -/
def walkValue (key : String) (value : Toml) (pre : String) :
    Except String (List DomainExports) :=
  match value with
  | .table vt =>
    match Toml.get? vt "pipes" with
    | some (.arr items) =>
      match asStringList items with
      | .error e => .error e
      | .ok pipes =>
        match pydanticDomainExports (pathJoin pre key) pipes with
        | .error e => .error e
        | .ok de =>
          match walkSubsB vt (pathJoin pre key) with
          | .error e => .error e
          | .ok subs => .ok (de :: subs)
    | some _ => .error "pipes must be a list"
    | none => walkEntriesA vt (pathJoin pre key)
  | _ => .ok []

/-- The inner loop of a pipes-bearing node: walk every dict-valued sub-key
other than pipes (each wrapped into a singleton walk in the source). -/
def walkSubsB : List (String × Toml) → String →
    Except String (List DomainExports)
  | [], _ => .ok []
  | (sub_key, sub_value) :: rest, current_path =>
    match
      (if sub_key == "pipes" then .ok []
       else
         match sub_value with
         | .table _ => walkValue sub_key sub_value current_path
         | _ => .ok []) with
    | .error e => .error e
    | .ok here =>
      match walkSubsB rest current_path with
      | .error e => .error e
      | .ok more => .ok (here ++ more)
end

/-- Known [package] keys. -/
def knownPackageKeys : List String :=
  ["address", "display_name", "version", "description", "authors",
   "license", "mthds_version"]

/-- Embeds parse_methods_toml on an already-TOML-parsed document: require a
[package] table, flatten [dependencies] injecting aliases, walk the nested
[exports], reject unknown [package] keys, and build the validated
manifest. -/
def parse_methods_toml (raw : List (String × Toml)) :
    Except String MthdsPackageManifest := do
  match Toml.get? raw "package" with
  | some (.table pkg) => do
    let dependencies ←
      match (Toml.get? raw "dependencies").getD (.table []) with
      | .table entries =>
        entries.foldlM
          (fun acc kv =>
            match kv.2 with
            | .table dt => do
              let dep ← parseDependencyTable kv.1 dt
              pure (acc ++ [dep])
            | _ => .error "dependency entry must be a table")
          ([] : List PackageDependency)
      | _ => pure []
    let exports ←
      match (Toml.get? raw "exports").getD (.table []) with
      | .table entries => walkEntriesA entries ""
      | _ => pure []
    if !(pkg.all fun p => knownPackageKeys.contains p.1) then
      .error "Unknown keys in package section"
    else
      let address := pyStr ((Toml.get? pkg "address").getD (.str ""))
      let version := pyStr ((Toml.get? pkg "version").getD (.str ""))
      let description := pyStr ((Toml.get? pkg "description").getD (.str ""))
      let authors ←
        match Toml.get? pkg "authors" with
        | some (.arr items) => asStringList items
        | _ => pure []
      let license :=
        match Toml.get? pkg "license" with
        | none => none
        | some v => some (pyStr v)
      let mthds_version :=
        match Toml.get? pkg "mthds_version" with
        | none => none
        | some v => some (pyStr v)
      let display_name :=
        match Toml.get? pkg "display_name" with
        | none => none
        | some v => some (pyStr v)
      pydanticManifest address display_name version description authors
        license mthds_version dependencies exports
  | _ => .error "METHODS.toml must contain a package section"

/-! ## Round-trip analysis of the exports tree -/

/-- String test of a TOML value. -/
def isStrToml : Toml → Bool
  | .str _ => true
  | _ => false

mutual
/-- Well-formed exports tree: keys are unique at every level, a "pipes" key
holds an array of strings, and every other key holds a well-formed
sub-table.  The trees built by the exports serializer have this shape. -/
def wfTree : List (String × Toml) → Bool
  | [] => true
  | (k, v) :: rest =>
    !(rest.any fun p => p.1 == k) && wfVal k v && wfTree rest

/-- Well-formed value under a key. -/
def wfVal (k : String) (v : Toml) : Bool :=
  if k == "pipes" then
    match v with
    | .arr items => items.all isStrToml
    | _ => false
  else
    match v with
    | .table vt => wfTree vt
    | _ => false
end

/-- The string values of a TOML array (all of them, on well-formed input). -/
def strValues (items : List Toml) : List String :=
  items.filterMap fun
    | .str s => some s
    | _ => none

mutual
/-- The (path, pipes) entries a well-formed node contributes: its own pipes
array, if any, then the entries of its sub-tables in key order. -/
def nodeEntries (vt : List (String × Toml)) (p : String) :
    List (String × List String) :=
  (match Toml.get? vt "pipes" with
   | some (.arr items) => [(p, strValues items)]
   | _ => []) ++ subEntries vt p

/-- The entries contributed by one key of a level: the node entries of a
sub-table under a non-pipes key, nothing otherwise. -/
def subEntryHead (k : String) (v : Toml) (p : String) :
    List (String × List String) :=
  if k == "pipes" then []
  else
    match v with
    | .table vt => nodeEntries vt (pathJoin p k)
    | _ => []

/-- The entries of the sub-tables of a level, skipping the pipes key. -/
def subEntries : List (String × Toml) → String → List (String × List String)
  | [], _ => []
  | (k, v) :: rest, p => subEntryHead k v p ++ subEntries rest p
end

/-- subEntries distributes over table concatenation. -/
theorem subEntries_append (t1 t2 : List (String × Toml)) (p : String) :
    subEntries (t1 ++ t2) p = subEntries t1 p ++ subEntries t2 p := by
  induction t1 with
  | nil => simp [subEntries]
  | cons e rest ih =>
    rcases e with ⟨k, v⟩
    rw [List.cons_append]
    rw [subEntries, subEntries, ih, List.append_assoc]

/-- On a string-array, the cast returns exactly the string values. -/
theorem asStringList_of_all_str (items : List Toml)
    (h : items.all isStrToml = true) :
    asStringList items = .ok (strValues items) := by
  induction items with
  | nil => rfl
  | cons v rest ih =>
    rw [List.all_cons, Bool.and_eq_true] at h
    cases v with
    | str s =>
      rw [asStringList, ih h.2]
      rfl
    | arr l => exact absurd h.1 (by simp [isStrToml])
    | table t => exact absurd h.1 (by simp [isStrToml])

/-- A lookup in a well-formed tree returns a well-formed value. -/
theorem wfTree_get? (t : List (String × Toml)) (k : String) (v : Toml)
    (hwf : wfTree t = true) (hget : Toml.get? t k = some v) :
    wfVal k v = true := by
  induction t with
  | nil => simp [Toml.get?, List.find?] at hget
  | cons e rest ih =>
    rcases e with ⟨k', v'⟩
    rw [wfTree, Bool.and_eq_true, Bool.and_eq_true] at hwf
    unfold Toml.get? at hget
    rw [List.find?_cons] at hget
    by_cases hk : (k' == k) = true
    · simp only [hk, if_pos] at hget
      have hv : v' = v := by simpa using hget
      rw [beq_iff_eq] at hk
      subst hk
      rw [← hv]
      exact hwf.1.2
    · rw [Bool.not_eq_true] at hk
      simp only [hk, Bool.false_eq_true, if_false] at hget
      exact ih hwf.2 hget

/-- Size of a list is positive. -/
theorem list_sizeOf_pos (l : List (String × Toml)) : 0 < sizeOf l := by
  cases l <;> simp

/-- Head value is smaller than the cons cell. -/
theorem sizeOf_head_val_lt (k : String) (v : Toml) (rest : List (String × Toml)) :
    sizeOf v < sizeOf ((k, v) :: rest) := by
  simp [Prod.mk.sizeOf_spec]
  omega

/-- Tail is smaller than the cons cell. -/
theorem sizeOf_tail_lt (k : String) (v : Toml) (rest : List (String × Toml)) :
    sizeOf rest < sizeOf ((k, v) :: rest) := by
  simp [Prod.mk.sizeOf_spec]

/-- Table contents are smaller than the table value. -/
theorem sizeOf_table_lt (vt : List (String × Toml)) :
    sizeOf vt < sizeOf (Toml.table vt) := by
  simp

/-! Step equations for the mutually recursive walk and well-formedness
functions (well-founded definitions do not reduce definitionally). -/

/-- Step equation: empty level. -/
theorem walkEntriesA_nil (pre : String) : walkEntriesA [] pre = .ok [] := by
  rw [walkEntriesA]

/-- Step equation: one entry then the rest. -/
theorem walkEntriesA_cons (k : String) (v : Toml) (rest : List (String × Toml))
    (pre : String) :
    walkEntriesA ((k, v) :: rest) pre =
      match walkValue k v pre with
      | .error e => .error e
      | .ok here =>
        match walkEntriesA rest pre with
        | .error e => .error e
        | .ok more => .ok (here ++ more) := by
  rw [walkEntriesA]

/-- Step equation: string values are skipped. -/
theorem walkValue_str (k : String) (s : String) (pre : String) :
    walkValue k (.str s) pre = .ok [] := by
  rw [walkValue]
  exact fun step h => Toml.noConfusion h

/-- Step equation: array values are skipped. -/
theorem walkValue_arr (k : String) (items : List Toml) (pre : String) :
    walkValue k (.arr items) pre = .ok [] := by
  rw [walkValue]
  exact fun step h => Toml.noConfusion h

/-- Step equation: table values are inspected for a pipes array. -/
theorem walkValue_table (k : String) (vt : List (String × Toml)) (pre : String) :
    walkValue k (.table vt) pre =
      match Toml.get? vt "pipes" with
      | some (.arr items) =>
        match asStringList items with
        | .error e => .error e
        | .ok pipes =>
          match pydanticDomainExports (pathJoin pre k) pipes with
          | .error e => .error e
          | .ok de =>
            match walkSubsB vt (pathJoin pre k) with
            | .error e => .error e
            | .ok subs => .ok (de :: subs)
      | some _ => .error "pipes must be a list"
      | none => walkEntriesA vt (pathJoin pre k) := by
  rw [walkValue]

/-- Step equation: empty sub-walk. -/
theorem walkSubsB_nil (p : String) : walkSubsB [] p = .ok [] := by
  rw [walkSubsB]

/-- Step equation: a table-valued sub-entry. -/
theorem walkSubsB_cons_table (k : String) (vt : List (String × Toml))
    (rest : List (String × Toml)) (p : String) :
    walkSubsB ((k, .table vt) :: rest) p =
      match (if k == "pipes" then Except.ok []
        else walkValue k (.table vt) p) with
      | .error e => .error e
      | .ok here =>
        match walkSubsB rest p with
        | .error e => .error e
        | .ok more => .ok (here ++ more) := by
  rw [walkSubsB]

/-- Step equation: a string-valued sub-entry is skipped. -/
theorem walkSubsB_cons_str (k s : String) (rest : List (String × Toml))
    (p : String) :
    walkSubsB ((k, .str s) :: rest) p =
      match walkSubsB rest p with
      | .error e => .error e
      | .ok more => .ok ([] ++ more) := by
  rw [walkSubsB]
  · rw [ite_self]
  · exact fun step h => Toml.noConfusion h

/-- Step equation: an array-valued sub-entry is skipped. -/
theorem walkSubsB_cons_arr (k : String) (items : List Toml)
    (rest : List (String × Toml)) (p : String) :
    walkSubsB ((k, .arr items) :: rest) p =
      match walkSubsB rest p with
      | .error e => .error e
      | .ok more => .ok ([] ++ more) := by
  rw [walkSubsB]
  · rw [ite_self]
  · exact fun step h => Toml.noConfusion h

/-- Step equation: the empty tree is well formed. -/
theorem wfTree_nil : wfTree [] = true := by rw [wfTree]

/-- Step equation: well-formedness of a cons level. -/
theorem wfTree_cons (k : String) (v : Toml) (rest : List (String × Toml)) :
    wfTree ((k, v) :: rest) =
      (!(rest.any fun p => p.1 == k) && wfVal k v && wfTree rest) := by
  rw [wfTree]

/-- Step equation: well-formedness of a string value. -/
theorem wfVal_str (k s : String) : wfVal k (.str s) = false := by
  rw [wfVal]
  · rw [ite_self]
  · exact fun items h => Toml.noConfusion h
  · exact fun step h => Toml.noConfusion h

/-- Step equation: well-formedness of an array value. -/
theorem wfVal_arr (k : String) (items : List Toml) :
    wfVal k (.arr items) =
      if k == "pipes" then items.all isStrToml else false := by
  rw [wfVal]

/-- Step equation: well-formedness of a table value. -/
theorem wfVal_table (k : String) (vt : List (String × Toml)) :
    wfVal k (.table vt) = if k == "pipes" then false else wfTree vt := by
  rw [wfVal]

/-- Conditional step equation: a table value carrying a pipes array. -/
theorem walkValue_table_pipes (k : String) (vt : List (String × Toml))
    (pre : String) (items : List Toml)
    (hget : Toml.get? vt "pipes" = some (.arr items)) :
    walkValue k (.table vt) pre =
      match asStringList items with
      | .error e => .error e
      | .ok pipes =>
        match pydanticDomainExports (pathJoin pre k) pipes with
        | .error e => .error e
        | .ok de =>
          match walkSubsB vt (pathJoin pre k) with
          | .error e => .error e
          | .ok subs => .ok (de :: subs) := by
  rw [walkValue_table, hget]

/-- Conditional step equation: a table value without a pipes key. -/
theorem walkValue_table_nopipes (k : String) (vt : List (String × Toml))
    (pre : String) (hget : Toml.get? vt "pipes" = none) :
    walkValue k (.table vt) pre = walkEntriesA vt (pathJoin pre k) := by
  rw [walkValue_table, hget]

/-- Conditional step equation: node entries with a pipes array. -/
theorem nodeEntries_pipes (vt : List (String × Toml)) (p : String)
    (items : List Toml) (hget : Toml.get? vt "pipes" = some (.arr items)) :
    nodeEntries vt p = (p, strValues items) :: subEntries vt p := by
  rw [nodeEntries, hget]
  rfl

/-- Conditional step equation: node entries without a pipes key. -/
theorem nodeEntries_nopipes (vt : List (String × Toml)) (p : String)
    (hget : Toml.get? vt "pipes" = none) :
    nodeEntries vt p = subEntries vt p := by
  rw [nodeEntries, hget]
  rfl

/-- Step equation: an array value contributes no sub-entries. -/
theorem subEntryHead_arr (k : String) (items : List Toml) (p : String) :
    subEntryHead k (.arr items) p = [] := by
  rw [subEntryHead]
  · rw [ite_self]
  · exact fun step h => Toml.noConfusion h

/-- Step equation: a table value contributes its node entries unless the
key is pipes. -/
theorem subEntryHead_table (k : String) (vt : List (String × Toml))
    (p : String) :
    subEntryHead k (.table vt) p =
      if k == "pipes" then [] else nodeEntries vt (pathJoin p k) := by
  rw [subEntryHead]

/-- Validate a flat entries list in order, building the DomainExports. -/
def okEntries : List (String × List String) → Except String (List DomainExports)
  | [] => .ok []
  | (q, ps) :: rest =>
    match pydanticDomainExports q ps with
    | .error e => .error e
    | .ok de =>
      match okEntries rest with
      | .error e => .error e
      | .ok more => .ok (de :: more)

/-- okEntries distributes over append with left-first error propagation. -/
theorem okEntries_append (l1 l2 : List (String × List String)) :
    okEntries (l1 ++ l2) =
      match okEntries l1 with
      | .error e => .error e
      | .ok a =>
        match okEntries l2 with
        | .error e => .error e
        | .ok b => .ok (a ++ b) := by
  induction l1 with
  | nil =>
    rw [List.nil_append]
    cases okEntries l2 with
    | error e => rfl
    | ok b => rfl
  | cons e rest ih =>
    rcases e with ⟨q, ps⟩
    rw [List.cons_append, okEntries, okEntries, ih]
    cases pydanticDomainExports q ps with
    | error e => rfl
    | ok de =>
      cases okEntries rest with
      | error e => rfl
      | ok a =>
        cases okEntries l2 with
        | error e => rfl
        | ok b => rfl

/-- On well-formed trees the exports walk validates, in order, exactly the
flat (path, pipes) entries of the tree: the outer level walk and the
sub-table walk both produce okEntries of the subEntries of the level, and
a table value produces okEntries of its nodeEntries. -/
theorem walk_correct (n : Nat) :
    (∀ t p, sizeOf t ≤ n → wfTree t = true →
      walkEntriesA t p = okEntries (subEntries t p)) ∧
    (∀ t q, sizeOf t ≤ n → wfTree t = true →
      walkSubsB t q = okEntries (subEntries t q)) ∧
    (∀ t k pre, sizeOf t ≤ n → wfTree t = true →
      walkValue k (.table t) pre =
        okEntries (nodeEntries t (pathJoin pre k))) := by
  induction n using Nat.strong_induction_on with
  | _ n ih =>
    have hA : ∀ t p, sizeOf t ≤ n → wfTree t = true →
        walkEntriesA t p = okEntries (subEntries t p) := by
      intro t p hsz hwf
      cases t with
      | nil =>
        rw [walkEntriesA_nil, subEntries]
        rfl
      | cons hd rest =>
        rcases hd with ⟨k, v⟩
        rw [wfTree_cons, Bool.and_eq_true, Bool.and_eq_true] at hwf
        have hszrest : sizeOf rest < n :=
          lt_of_lt_of_le (sizeOf_tail_lt k v rest) hsz
        have hrest := (ih (sizeOf rest) hszrest).1 rest p (le_refl _) hwf.2
        rw [walkEntriesA_cons, subEntries, okEntries_append]
        cases v with
        | str s => exact absurd hwf.1.2 (by simp [wfVal_str])
        | arr items =>
          rw [walkValue_arr, hrest, subEntryHead_arr]
          cases okEntries (subEntries rest p) with
          | error e => rfl
          | ok more => rfl
        | table vt =>
          by_cases hk : (k == "pipes") = true
          · have h2 := hwf.1.2
            rw [wfVal_table, if_pos hk] at h2
            exact Bool.noConfusion h2
          · have h2 := hwf.1.2
            rw [wfVal_table, if_neg hk] at h2
            have hszvt : sizeOf vt < n :=
              lt_of_lt_of_le (lt_trans (sizeOf_table_lt vt)
                (sizeOf_head_val_lt k (.table vt) rest)) hsz
            have hval := (ih (sizeOf vt) hszvt).2.2 vt k p (le_refl _) h2
            rw [hval, hrest, subEntryHead_table, if_neg hk]
    have hB : ∀ t q, sizeOf t ≤ n → wfTree t = true →
        walkSubsB t q = okEntries (subEntries t q) := by
      intro t q hsz hwf
      cases t with
      | nil =>
        rw [walkSubsB_nil, subEntries]
        rfl
      | cons hd rest =>
        rcases hd with ⟨k, v⟩
        rw [wfTree_cons, Bool.and_eq_true, Bool.and_eq_true] at hwf
        have hszrest : sizeOf rest < n :=
          lt_of_lt_of_le (sizeOf_tail_lt k v rest) hsz
        have hrest := (ih (sizeOf rest) hszrest).2.1 rest q (le_refl _) hwf.2
        rw [subEntries, okEntries_append]
        cases v with
        | str s => exact absurd hwf.1.2 (by simp [wfVal_str])
        | arr items =>
          rw [walkSubsB_cons_arr, hrest, subEntryHead_arr]
          cases okEntries (subEntries rest q) with
          | error e => rfl
          | ok more => rfl
        | table vt =>
          by_cases hk : (k == "pipes") = true
          · have h2 := hwf.1.2
            rw [wfVal_table, if_pos hk] at h2
            exact Bool.noConfusion h2
          · have h2 := hwf.1.2
            rw [wfVal_table, if_neg hk] at h2
            have hszvt : sizeOf vt < n :=
              lt_of_lt_of_le (lt_trans (sizeOf_table_lt vt)
                (sizeOf_head_val_lt k (.table vt) rest)) hsz
            have hval := (ih (sizeOf vt) hszvt).2.2 vt k q (le_refl _) h2
            rw [walkSubsB_cons_table, if_neg hk, hval, hrest,
              subEntryHead_table, if_neg hk]
    have hC : ∀ t k pre, sizeOf t ≤ n → wfTree t = true →
        walkValue k (.table t) pre =
          okEntries (nodeEntries t (pathJoin pre k)) := by
      intro t k pre hsz hwf
      cases hget : Toml.get? t "pipes" with
      | none =>
        rw [walkValue_table_nopipes k t pre hget, nodeEntries_nopipes t _ hget]
        exact hA t (pathJoin pre k) hsz hwf
      | some v =>
        have hv := wfTree_get? t "pipes" v hwf hget
        cases v with
        | str s =>
          rw [wfVal_str] at hv
          exact Bool.noConfusion hv
        | table vt =>
          rw [wfVal_table] at hv
          simp at hv
        | arr items =>
          have hall : items.all isStrToml = true := by
            rw [wfVal_arr] at hv
            simpa using hv
          rw [walkValue_table_pipes k t pre items hget,
            nodeEntries_pipes t (pathJoin pre k) items hget,
            asStringList_of_all_str items hall,
            hB t (pathJoin pre k) hsz hwf, okEntries]
    exact ⟨hA, hB, hC⟩

/-! ## Lemmas on the TOML table primitives used by the exports serializer -/

/-- Lookup in the empty table. -/
theorem Toml.get?_nil (k : String) : Toml.get? [] k = none := rfl

/-- Lookup steps over a cons cell. -/
theorem Toml.get?_cons (k' : String) (v : Toml) (t : List (String × Toml))
    (k : String) :
    Toml.get? ((k', v) :: t) k =
      if k' == k then some v else Toml.get? t k := by
  unfold Toml.get?
  rw [List.find?_cons]
  by_cases h : (k' == k) = true
  · simp [h]
  · rw [Bool.not_eq_true] at h
    simp [h]

/-- A lookup misses exactly when no binding carries the key. -/
theorem Toml.get?_eq_none (t : List (String × Toml)) (k : String) :
    Toml.get? t k = none ↔ (t.any fun p => p.1 == k) = false := by
  induction t with
  | nil => simp [Toml.get?_nil]
  | cons hd rest ih =>
    rcases hd with ⟨k', v⟩
    rw [Toml.get?_cons, List.any_cons]
    by_cases h : (k' == k) = true
    · simp [h]
    · rw [Bool.not_eq_true] at h
      simp [h, ih]

/-- A hit in the left part survives an append. -/
theorem Toml.get?_append_left (t t2 : List (String × Toml)) (k : String)
    (v : Toml) (h : Toml.get? t k = some v) :
    Toml.get? (t ++ t2) k = some v := by
  induction t with
  | nil => rw [Toml.get?_nil] at h; exact Option.noConfusion h
  | cons hd rest ih =>
    rcases hd with ⟨k', w⟩
    rw [Toml.get?_cons] at h
    rw [List.cons_append, Toml.get?_cons]
    by_cases hk : (k' == k) = true
    · rw [if_pos hk] at h ⊢; exact h
    · rw [if_neg hk] at h ⊢; exact ih h

/-- A miss in the left part defers to the right part. -/
theorem Toml.get?_append_right (t t2 : List (String × Toml)) (k : String)
    (h : Toml.get? t k = none) :
    Toml.get? (t ++ t2) k = Toml.get? t2 k := by
  induction t with
  | nil => rw [List.nil_append]
  | cons hd rest ih =>
    rcases hd with ⟨k', w⟩
    rw [Toml.get?_cons] at h
    rw [List.cons_append, Toml.get?_cons]
    by_cases hk : (k' == k) = true
    · rw [if_pos hk] at h; exact Option.noConfusion h
    · rw [if_neg hk] at h ⊢; exact ih h

/-- Success of the duplicate-checking table insert. -/
theorem tomlAdd_ok (t : List (String × Toml)) (k : String) (v : Toml)
    (t' : List (String × Toml)) (h : tomlAdd t k v = .ok t') :
    (t.any fun p => p.1 == k) = false ∧ t' = t ++ [(k, v)] := by
  unfold tomlAdd at h
  by_cases ha : (t.any fun p => p.1 == k) = true
  · rw [if_pos ha] at h; exact Except.noConfusion h
  · rw [Bool.not_eq_true] at ha
    rw [ha] at h
    simp only [Bool.false_eq_true, if_false] at h
    injection h with h
    exact ⟨ha, h.symm⟩

/-- The string values of a string-mapped list are the list itself. -/
theorem strValues_map_str (ps : List String) :
    strValues (ps.map .str) = ps := by
  induction ps with
  | nil => rfl
  | cons s rest ih => simp [strValues, List.filterMap_cons] at ih ⊢; exact ih

/-- The empty level has no sub-entries. -/
theorem subEntries_nil (p : String) : subEntries [] p = [] := by
  rw [subEntries]

/-- Sub-entries of a singleton level. -/
theorem subEntries_singleton (k : String) (v : Toml) (p : String) :
    subEntries [(k, v)] p = subEntryHead k v p := by
  rw [subEntries, subEntries_nil, List.append_nil]

/-- The empty table has no node entries. -/
theorem nodeEntries_nil (p : String) : nodeEntries [] p = [] := by
  rw [nodeEntries_nopipes [] p (Toml.get?_nil "pipes"), subEntries_nil]

/-- Appending a fresh well-formed binding preserves tree well-formedness. -/
theorem wfTree_append_fresh (t : List (String × Toml)) (k : String) (v : Toml)
    (hw : wfTree t = true) (hfresh : (t.any fun p => p.1 == k) = false)
    (hv : wfVal k v = true) : wfTree (t ++ [(k, v)]) = true := by
  induction t with
  | nil =>
    rw [List.nil_append, wfTree_cons, wfTree_nil]
    simp [hv]
  | cons hd rest ih =>
    rcases hd with ⟨k', w⟩
    rw [wfTree_cons, Bool.and_eq_true, Bool.and_eq_true] at hw
    rw [List.any_cons, Bool.or_eq_false_iff] at hfresh
    rw [List.cons_append, wfTree_cons, Bool.and_eq_true, Bool.and_eq_true]
    refine ⟨⟨?_, hw.1.2⟩, ih hw.2 hfresh.2⟩
    have h1 : (rest.any fun p => p.1 == k') = false := by
      have h := hw.1.1
      rwa [Bool.not_eq_true'] at h
    have h2 : (k == k') = false := by
      rw [beq_eq_false_iff_ne]
      exact fun he => (beq_eq_false_iff_ne.mp hfresh.1) he.symm
    rw [List.any_append, List.any_cons, List.any_nil]
    simp [h1, h2]

/-- Updating a key absent from the table is the identity. -/
theorem tomlUpdate_id (t : List (String × Toml)) (s : String) (v : Toml)
    (h : (t.any fun p => p.1 == s) = false) : tomlUpdate t s v = t := by
  induction t with
  | nil => rfl
  | cons hd rest ih =>
    rcases hd with ⟨k', w⟩
    rw [List.any_cons, Bool.or_eq_false_iff] at h
    show (if k' == s then (s, v) else (k', w)) :: tomlUpdate rest s v = _
    rw [if_neg (by rw [h.1]; exact Bool.noConfusion), ih h.2]

/-- Updating a value does not change which keys occur. -/
theorem tomlUpdate_any (t : List (String × Toml)) (s : String) (v : Toml)
    (k : String) :
    ((tomlUpdate t s v).any fun p => p.1 == k) =
      (t.any fun p => p.1 == k) := by
  induction t with
  | nil => rfl
  | cons hd rest ih =>
    rcases hd with ⟨k', w⟩
    show ((if k' == s then (s, v) else (k', w)) :: tomlUpdate rest s v).any _ = _
    rw [List.any_cons, List.any_cons, ih]
    by_cases hk : (k' == s) = true
    · rw [if_pos hk]
      have : k' = s := beq_iff_eq.mp hk
      rw [this]
    · rw [if_neg hk]

/-- A pipes array of strings is a well-formed value. -/
theorem wfVal_pipes_arr (ps : List String) :
    wfVal "pipes" (.arr (ps.map .str)) = true := by
  rw [wfVal_arr]
  simp [isStrToml]

/-- Replacing a sub-table of a well-formed tree by a well-formed table whose
node entries gained one element x keeps the tree well formed, keeps the
pipes lookup, and adds x (up to permutation) to the sub-entries. -/
theorem tomlUpdate_wf_entries (t : List (String × Toml)) (seg : String)
    (sub sub' : List (String × Toml)) (p : String) (x : String × List String)
    (hw : wfTree t = true) (hget : Toml.get? t seg = some (.table sub))
    (hseg : (seg == "pipes") = false) (hw' : wfTree sub' = true)
    (hperm : List.Perm (nodeEntries sub' (pathJoin p seg))
      (x :: nodeEntries sub (pathJoin p seg))) :
    wfTree (tomlUpdate t seg (.table sub')) = true ∧
    Toml.get? (tomlUpdate t seg (.table sub')) "pipes" = Toml.get? t "pipes" ∧
    List.Perm (subEntries (tomlUpdate t seg (.table sub')) p)
      (x :: subEntries t p) := by
  induction t with
  | nil =>
    rw [Toml.get?_nil] at hget
    exact Option.noConfusion hget
  | cons hd rest ih =>
    rcases hd with ⟨k', w⟩
    rw [wfTree_cons, Bool.and_eq_true, Bool.and_eq_true] at hw
    rw [Toml.get?_cons] at hget
    have hstep : tomlUpdate ((k', w) :: rest) seg (.table sub') =
        (if k' == seg then (seg, .table sub') else (k', w)) ::
          tomlUpdate rest seg (.table sub') := rfl
    by_cases hk : (k' == seg) = true
    · have hkeq : k' = seg := beq_iff_eq.mp hk
      rw [if_pos hk] at hget
      have hwsub : w = .table sub := by
        injection hget with hget
      have hrestno : (rest.any fun q => q.1 == seg) = false := by
        have h := hw.1.1
        rw [Bool.not_eq_true'] at h
        rw [← hkeq]
        exact h
      rw [hstep, if_pos hk, tomlUpdate_id rest seg _ hrestno]
      refine ⟨?_, ?_, ?_⟩
      · rw [wfTree_cons, Bool.and_eq_true, Bool.and_eq_true]
        refine ⟨⟨?_, ?_⟩, hw.2⟩
        · rw [Bool.not_eq_true', hrestno]
        · rw [wfVal_table, if_neg (by rw [hseg]; exact Bool.noConfusion)]
          exact hw'
      · rw [Toml.get?_cons, Toml.get?_cons,
          if_neg (by rw [hseg]; exact Bool.noConfusion),
          if_neg (by rw [hkeq, hseg]; exact Bool.noConfusion)]
      · rw [subEntries, subEntries, hwsub, hkeq]
        have hsegP : ¬ (seg == "pipes") = true := by
          rw [hseg]; exact Bool.noConfusion
        rw [subEntryHead_table, subEntryHead_table, if_neg hsegP, if_neg hsegP]
        have h2 := List.Perm.append_right (subEntries rest p) hperm
        rw [List.cons_append] at h2
        exact h2
    · rw [if_neg hk] at hget
      rcases ih hw.2 hget with ⟨ihwf, ihget, ihperm⟩
      rw [hstep, if_neg hk]
      refine ⟨?_, ?_, ?_⟩
      · rw [wfTree_cons, Bool.and_eq_true, Bool.and_eq_true]
        refine ⟨⟨?_, hw.1.2⟩, ihwf⟩
        rw [Bool.not_eq_true', tomlUpdate_any]
        have h := hw.1.1
        rwa [Bool.not_eq_true'] at h
      · rw [Toml.get?_cons, Toml.get?_cons]
        by_cases hp : (k' == "pipes") = true
        · rw [if_pos hp, if_pos hp]
        · rw [if_neg hp, if_neg hp, ihget]
      · rw [subEntries, subEntries]
        refine (List.Perm.append_left (subEntryHead k' w p) ihperm).trans ?_
        exact List.perm_middle

/-- Appending a single differently-keyed binding preserves a lookup. -/
theorem Toml.get?_append_one (t : List (String × Toml)) (k : String)
    (v : Toml) (k2 : String) (hk : (k == k2) = false) :
    Toml.get? (t ++ [(k, v)]) k2 = Toml.get? t k2 := by
  cases hp : Toml.get? t k2 with
  | some w => exact Toml.get?_append_left t _ k2 w hp
  | none =>
    rw [Toml.get?_append_right t _ k2 hp, Toml.get?_cons,
      if_neg (by rw [hk]; exact Bool.noConfusion), Toml.get?_nil]

/-- Unconditional unfolding of nodeEntries. -/
theorem nodeEntries_eq (t : List (String × Toml)) (p : String) :
    nodeEntries t p =
      (match Toml.get? t "pipes" with
       | some (.arr items) => [(p, strValues items)]
       | _ => []) ++ subEntries t p := by
  rw [nodeEntries]

/-- Appending one non-pipes binding appends its sub-entries. -/
theorem nodeEntries_append_one (t : List (String × Toml)) (k : String)
    (v : Toml) (p : String) (hk : (k == "pipes") = false) :
    nodeEntries (t ++ [(k, v)]) p = nodeEntries t p ++ subEntryHead k v p := by
  rw [nodeEntries_eq, nodeEntries_eq, Toml.get?_append_one t k v "pipes" hk,
    subEntries_append, subEntries_singleton, List.append_assoc]

/-- The dotted join of a prefix with a list of segments. -/
def joinAt (p : String) (segs : List String) : String := segs.foldl pathJoin p

/-- Step equation for joinAt. -/
theorem joinAt_cons (p s : String) (ss : List String) :
    joinAt p (s :: ss) = joinAt (pathJoin p s) ss := rfl

/-- Step equation: navAdd at the final node adds the pipes array. -/
theorem navAdd_nil (t : List (String × Toml)) (ps : List String) :
    navAdd t [] ps = tomlAdd t "pipes" (Toml.arr (ps.map .str)) := rfl

/-- Step equation: navAdd descends into a missing key by building a fresh
sub-tree. -/
theorem navAdd_cons_none (t : List (String × Toml)) (seg : String)
    (rest ps : List String) (hget : Toml.get? t seg = none) :
    navAdd t (seg :: rest) ps =
      match navAdd [] rest ps with
      | .ok sub => .ok (t ++ [(seg, .table sub)])
      | .error e => .error e := by
  show (match Toml.get? t seg with
    | none =>
      match navAdd [] rest ps with
      | Except.ok sub => Except.ok (t ++ [(seg, Toml.table sub)])
      | Except.error e => Except.error e
    | some (Toml.table sub) =>
      match navAdd sub rest ps with
      | Except.ok sub2 => Except.ok (tomlUpdate t seg (Toml.table sub2))
      | Except.error e => Except.error e
    | some _ =>
      (Except.error "navigated into a non-table" :
        Except String (List (String × Toml)))) = _
  rw [hget]

/-- Step equation: navAdd descends into an existing sub-table. -/
theorem navAdd_cons_table (t : List (String × Toml)) (seg : String)
    (rest ps : List String) (sub : List (String × Toml))
    (hget : Toml.get? t seg = some (.table sub)) :
    navAdd t (seg :: rest) ps =
      match navAdd sub rest ps with
      | .ok sub' => .ok (tomlUpdate t seg (.table sub'))
      | .error e => .error e := by
  show (match Toml.get? t seg with
    | none =>
      match navAdd [] rest ps with
      | Except.ok sub => Except.ok (t ++ [(seg, Toml.table sub)])
      | Except.error e => Except.error e
    | some (Toml.table sub) =>
      match navAdd sub rest ps with
      | Except.ok sub2 => Except.ok (tomlUpdate t seg (Toml.table sub2))
      | Except.error e => Except.error e
    | some _ =>
      (Except.error "navigated into a non-table" :
        Except String (List (String × Toml)))) = _
  rw [hget]

/-- A successful navAdd on a well-formed tree, along segments never named
pipes, preserves well-formedness, adds exactly one (path, pipes) entry up
to permutation, and (for a non-empty path) leaves the top-level pipes key
untouched. -/
theorem navAdd_entries (segs : List String) :
    ∀ (t t' : List (String × Toml)) (p : String) (ps : List String),
    wfTree t = true →
    (segs.all fun s => !(s == "pipes")) = true →
    navAdd t segs ps = .ok t' →
    wfTree t' = true ∧
    List.Perm (nodeEntries t' p) ((joinAt p segs, ps) :: nodeEntries t p) ∧
    (segs ≠ [] → Toml.get? t' "pipes" = Toml.get? t "pipes") := by
  induction segs with
  | nil =>
    intro t t' p ps hw _ hok
    rw [navAdd_nil] at hok
    rcases tomlAdd_ok t "pipes" _ t' hok with ⟨hfresh, ht'⟩
    subst ht'
    refine ⟨wfTree_append_fresh t "pipes" _ hw hfresh (wfVal_pipes_arr ps),
      ?_, fun h => absurd rfl h⟩
    have hnone : Toml.get? t "pipes" = none :=
      (Toml.get?_eq_none t "pipes").mpr hfresh
    have hget2 : Toml.get? (t ++ [("pipes", Toml.arr (ps.map .str))]) "pipes" =
        some (.arr (ps.map .str)) := by
      rw [Toml.get?_append_right t _ _ hnone, Toml.get?_cons]
      simp
    rw [nodeEntries_pipes _ p _ hget2, strValues_map_str,
      nodeEntries_nopipes t p hnone, subEntries_append, subEntries_singleton,
      subEntryHead_arr, List.append_nil]
    exact List.Perm.refl _
  | cons seg rest ihr =>
    intro t t' p ps hw hnp hok
    rw [List.all_cons, Bool.and_eq_true] at hnp
    have hseg : (seg == "pipes") = false := by
      have h := hnp.1
      rwa [Bool.not_eq_true'] at h
    have hsegP : ¬ (seg == "pipes") = true := by
      rw [hseg]; exact Bool.noConfusion
    cases hget : Toml.get? t seg with
    | none =>
      rw [navAdd_cons_none t seg rest ps hget] at hok
      cases hsub : navAdd [] rest ps with
      | error e =>
        rw [hsub] at hok
        exact Except.noConfusion hok
      | ok sub =>
        simp only [hsub] at hok
        injection hok with hok
        subst hok
        rcases ihr [] sub (pathJoin p seg) ps wfTree_nil hnp.2 hsub with
          ⟨ihwf, ihperm, _⟩
        rw [nodeEntries_nil] at ihperm
        have hfresh : (t.any fun q => q.1 == seg) = false :=
          (Toml.get?_eq_none t seg).mp hget
        have hval : wfVal seg (.table sub) = true := by
          rw [wfVal_table, if_neg hsegP]
          exact ihwf
        refine ⟨wfTree_append_fresh t seg _ hw hfresh hval, ?_,
          fun _ => Toml.get?_append_one t seg _ "pipes" hseg⟩
        rw [joinAt_cons, nodeEntries_append_one t seg _ p hseg,
          subEntryHead_table, if_neg hsegP]
        refine (List.Perm.append_left (nodeEntries t p) ihperm).trans ?_
        exact List.perm_append_singleton _ _
    | some v =>
      have hv := wfTree_get? t seg v hw hget
      cases v with
      | str s =>
        rw [wfVal_str] at hv
        exact Bool.noConfusion hv
      | arr items =>
        rw [wfVal_arr, if_neg hsegP] at hv
        exact Bool.noConfusion hv
      | table sub =>
        rw [wfVal_table, if_neg hsegP] at hv
        rw [navAdd_cons_table t seg rest ps sub hget] at hok
        cases hsub : navAdd sub rest ps with
        | error e =>
          rw [hsub] at hok
          exact Except.noConfusion hok
        | ok sub2 =>
          simp only [hsub] at hok
          injection hok with hok
          subst hok
          rcases ihr sub sub2 (pathJoin p seg) ps hv hnp.2 hsub with
            ⟨ihwf, ihperm, _⟩
          rcases tomlUpdate_wf_entries t seg sub sub2 p
            (joinAt (pathJoin p seg) rest, ps) hw hget hseg ihwf ihperm with
            ⟨uwf, uget, uperm⟩
          refine ⟨uwf, ?_, fun _ => uget⟩
          rw [joinAt_cons, nodeEntries_eq, nodeEntries_eq, uget]
          refine (List.Perm.append_left _ uperm).trans ?_
          exact List.perm_middle

/-- splitOnDotCh always returns at least one segment. -/
theorem splitOnDotCh_ne_nil (l : List Char) : splitOnDotCh l ≠ [] := by
  cases l with
  | nil => simp [splitOnDotCh]
  | cons c rest =>
    rw [splitOnDotCh]
    by_cases hc : c = '.'
    · rw [if_pos hc]
      exact List.cons_ne_nil _ _
    · rw [if_neg hc]
      cases splitOnDotCh rest with
      | nil => exact List.cons_ne_nil _ _
      | cons s ss => exact List.cons_ne_nil _ _

/-- A domain path always has at least one segment. -/
theorem domainSegments_ne_nil (d : String) : domainSegments d ≠ [] := by
  unfold domainSegments
  intro h
  exact splitOnDotCh_ne_nil d.toList (List.map_eq_nil_iff.mp h)

/-- Step equation for an Except foldlM. -/
theorem except_foldlM_cons {α β : Type} (f : β → α → Except String β)
    (b : β) (x : α) (xs : List α) :
    List.foldlM f b (x :: xs) =
      match f b x with
      | .error e => .error e
      | .ok b2 => List.foldlM f b2 xs := by
  rw [List.foldlM_cons]
  cases f b x with
  | error e => rfl
  | ok b2 => rfl

/-- A successful exports serialization yields a well-formed tree with no
top-level pipes key whose flat entries are, up to permutation, the
(joined path, pipes) pairs of the exports. -/
theorem serializeExports_entries (exports : List DomainExports) :
    ∀ (t tree : List (String × Toml)),
    wfTree t = true →
    (∀ e ∈ exports,
      ((domainSegments e.domain_path).all fun s => !(s == "pipes")) = true) →
    exports.foldlM
      (fun t e => navAdd t (domainSegments e.domain_path) e.pipes) t =
      .ok tree →
    wfTree tree = true ∧
    List.Perm (nodeEntries tree "")
      ((exports.map fun e =>
        (joinAt "" (domainSegments e.domain_path), e.pipes)) ++
        nodeEntries t "") ∧
    Toml.get? tree "pipes" = Toml.get? t "pipes" := by
  induction exports with
  | nil =>
    intro t tree hw _ hfold
    have h : t = tree := by injection hfold
    subst h
    exact ⟨hw, by rw [List.map_nil, List.nil_append], rfl⟩
  | cons e rest ih =>
    intro t tree hw hnp hfold
    rw [except_foldlM_cons] at hfold
    cases hstep : navAdd t (domainSegments e.domain_path) e.pipes with
    | error msg =>
      rw [hstep] at hfold
      exact Except.noConfusion hfold
    | ok t1 =>
      rw [hstep] at hfold
      rcases navAdd_entries _ t t1 "" e.pipes hw
        (hnp e (List.mem_cons_self e rest)) hstep with ⟨wf1, perm1, pipes1⟩
      rcases ih t1 tree wf1 (fun x hx => hnp x (List.mem_cons_of_mem e hx))
        hfold with ⟨wft, permt, pipest⟩
      refine ⟨wft, ?_, pipest.trans (pipes1 (domainSegments_ne_nil _))⟩
      rw [List.map_cons, List.cons_append]
      refine permt.trans ?_
      refine (List.Perm.append_left _ perm1).trans ?_
      exact List.perm_middle

/-- Dot-prefixed concatenation of the tail segments. -/
def dotJoinRest : List (List Char) → List Char
  | [] => []
  | s :: ss => '.' :: (s ++ dotJoinRest ss)

/-- Dot-joined concatenation of segments. -/
def joinDots : List (List Char) → List Char
  | [] => []
  | s :: ss => s ++ dotJoinRest ss

/-- Joining the dot-split of a character list restores it. -/
theorem splitOnDotCh_join (l : List Char) : joinDots (splitOnDotCh l) = l := by
  induction l with
  | nil => rfl
  | cons c rest ih =>
    rw [splitOnDotCh]
    by_cases hc : c = '.'
    · rw [if_pos hc]
      cases hs : splitOnDotCh rest with
      | nil => exact absurd hs (splitOnDotCh_ne_nil rest)
      | cons s ss =>
        rw [hs] at ih
        rw [joinDots] at ih
        rw [joinDots, dotJoinRest, List.nil_append, hc, ih]
    · rw [if_neg hc]
      cases hs : splitOnDotCh rest with
      | nil => exact absurd hs (splitOnDotCh_ne_nil rest)
      | cons s ss =>
        rw [hs] at ih
        rw [joinDots] at ih ⊢
        rw [List.cons_append, ih]

/-- Rebuilding a string from its characters. -/
theorem string_mk_toList (d : String) : String.mk d.toList = d := rfl

/-- Joining segments onto a non-empty accumulator inserts dots. -/
theorem joinAt_acc (ss : List (List Char)) :
    ∀ (acc : String), acc.toList ≠ [] →
    joinAt acc (ss.map String.mk) = String.mk (acc.toList ++ dotJoinRest ss) := by
  induction ss with
  | nil =>
    intro acc _
    rw [List.map_nil]
    rw [dotJoinRest, List.append_nil, string_mk_toList]
    rfl
  | cons s ss ih =>
    intro acc hacc
    rw [List.map_cons, joinAt_cons]
    have hne : ¬ (acc == "") = true := by
      rw [beq_iff_eq]
      intro h
      rw [h] at hacc
      exact hacc rfl
    have hpj : pathJoin acc (String.mk s) = acc ++ "." ++ String.mk s := by
      unfold pathJoin
      rw [if_neg hne]
    rw [hpj, ih (acc ++ "." ++ String.mk s) (by simp)]
    refine congrArg String.mk ?_
    have ht : (acc ++ "." ++ String.mk s).toList = acc.toList ++ '.' :: s := by
      show (acc ++ "." ++ String.mk s).data = acc.data ++ '.' :: s
      rw [String.data_append, String.data_append]
      simp
    rw [ht, dotJoinRest, List.append_assoc, List.cons_append]

/-- For strings not starting with a dot, joining the dot-split segments
from the empty prefix restores the string. -/
theorem joinAt_domainSegments (d : String)
    (hd : d.toList.head? ≠ some '.') :
    joinAt "" (domainSegments d) = d := by
  unfold domainSegments
  cases hl : d.toList with
  | nil =>
    have h0 : joinAt "" ((splitOnDotCh ([] : List Char)).map String.mk) = "" :=
      rfl
    rw [h0, ← string_mk_toList d, hl]
  | cons c rest =>
    have hc : c ≠ '.' := by
      intro h
      rw [hl, h] at hd
      exact hd rfl
    rw [splitOnDotCh, if_neg hc]
    cases hs : splitOnDotCh rest with
    | nil => exact absurd hs (splitOnDotCh_ne_nil rest)
    | cons s ss =>
      rw [List.map_cons, joinAt_cons]
      rw [show pathJoin "" (String.mk (c :: s)) = String.mk (c :: s) from rfl]
      rw [joinAt_acc ss (String.mk (c :: s)) (by simp)]
      have hj := splitOnDotCh_join (c :: rest)
      rw [splitOnDotCh, if_neg hc, hs, joinDots] at hj
      rw [show (String.mk (c :: s)).toList = c :: s from rfl, hj, ← hl,
        string_mk_toList]

/-- Bind on a successful Except value. -/
theorem except_bind_ok {α β : Type} (a : α) (f : α → Except String β) :
    (Except.ok a >>= f) = f a := rfl

/-- Bind on a failed Except value. -/
theorem except_bind_error {α β : Type} (e : String)
    (f : α → Except String β) :
    ((Except.error e : Except String α) >>= f) = Except.error e := rfl

/-- Pure of the Except monad. -/
theorem except_pure {α : Type} (a : α) :
    (pure a : Except String α) = Except.ok a := rfl

/-- Rebuilding a DomainExports from its fields. -/
theorem domainExports_eta (e : DomainExports) :
    (⟨e.domain_path, e.pipes⟩ : DomainExports) = e := rfl

/-- okEntries on a list of individually valid entries. -/
theorem okEntries_all_ok (l : List (String × List String))
    (h : ∀ x ∈ l, pydanticDomainExports x.1 x.2 = .ok ⟨x.1, x.2⟩) :
    okEntries l = .ok (l.map fun x => ⟨x.1, x.2⟩) := by
  induction l with
  | nil => rfl
  | cons x rest ih =>
    rcases x with ⟨q, ps⟩
    rw [okEntries, h ⟨q, ps⟩ (List.mem_cons_self _ _),
      ih fun y hy => h y (List.mem_cons_of_mem _ hy)]
    rfl

/-- Mapping the entry pair and rebuilding gives back the exports. -/
theorem map_pair_eta (exports : List DomainExports) :
    (exports.map fun e => ((e.domain_path, e.pipes) : String × List String)).map
      (fun x => (⟨x.1, x.2⟩ : DomainExports)) = exports := by
  induction exports with
  | nil => rfl
  | cons e rest ih =>
    rw [List.map_cons, List.map_cons, ih]

/-- Successful build of the [dependencies] table from aliases. -/
theorem depsBuild (deps : List PackageDependency) :
    ∀ t : List (String × Toml),
    ((deps.map fun d => d.depAlias).Nodup) →
    (∀ d ∈ deps, (t.any fun p => p.1 == d.depAlias) = false) →
    deps.foldlM (fun t d => tomlAdd t d.depAlias (dependencyTable d)) t =
      .ok (t ++ deps.map fun d => (d.depAlias, dependencyTable d)) := by
  induction deps with
  | nil =>
    intro t _ _
    rw [List.map_nil, List.append_nil]
    rfl
  | cons d rest ih =>
    intro t hnd hfr
    rw [List.map_cons, List.nodup_cons] at hnd
    rw [except_foldlM_cons]
    have hadd : tomlAdd t d.depAlias (dependencyTable d) =
        .ok (t ++ [(d.depAlias, dependencyTable d)]) := by
      unfold tomlAdd
      rw [hfr d (List.mem_cons_self d rest)]
      rfl
    rw [hadd]
    show rest.foldlM (fun t d => tomlAdd t d.depAlias (dependencyTable d))
      (t ++ [(d.depAlias, dependencyTable d)]) = _
    have hfr2 : ∀ x ∈ rest,
        ((t ++ [(d.depAlias, dependencyTable d)]).any
          fun p => p.1 == x.depAlias) = false := by
      intro x hx
      rw [List.any_append, List.any_cons, List.any_nil,
        hfr x (List.mem_cons_of_mem d hx)]
      have hne : (d.depAlias == x.depAlias) = false := by
        rw [beq_eq_false_iff_ne]
        intro he
        exact hnd.1 (he ▸ List.mem_map_of_mem (fun d => d.depAlias) hx)
      rw [hne]
      rfl
    rw [ih (t ++ [(d.depAlias, dependencyTable d)]) hnd.2 hfr2,
      List.map_cons, List.append_assoc]
    rfl

/-- Parsing back a serialized dependency table restores the dependency. -/
theorem parseDependencyTable_build (d : PackageDependency)
    (hd : pydanticDependency d.address d.version d.depAlias d.path = .ok d) :
    parseDependencyTable d.depAlias
      ([("address", Toml.str d.address), ("version", Toml.str d.version)] ++
        (match d.path with
         | some p => [("path", Toml.str p)]
         | none => [])) = .ok d := by
  cases hp : d.path with
  | none =>
    rw [hp] at hd
    simp [parseDependencyTable, Toml.get?_cons, Toml.get?_nil, hd]
  | some p =>
    rw [hp] at hd
    simp [parseDependencyTable, Toml.get?_cons, Toml.get?_nil, hd]

/-- Parsing the built [dependencies] table restores the dependency list. -/
theorem depsParse (deps : List PackageDependency)
    (hd : ∀ d ∈ deps,
      pydanticDependency d.address d.version d.depAlias d.path = .ok d) :
    ∀ acc : List PackageDependency,
    (deps.map fun d => (d.depAlias, dependencyTable d)).foldlM
      (fun acc kv =>
        match kv.2 with
        | .table dt => do
          let dep ← parseDependencyTable kv.1 dt
          pure (acc ++ [dep])
        | _ => .error "dependency entry must be a table") acc =
      .ok (acc ++ deps) := by
  induction deps with
  | nil =>
    intro acc
    rw [List.map_nil, List.append_nil]
    rfl
  | cons d rest ih =>
    intro acc
    rw [List.map_cons, except_foldlM_cons]
    have hstep : (match ((d.depAlias, dependencyTable d) : String × Toml).2 with
        | .table dt => do
          let dep ← parseDependencyTable
            ((d.depAlias, dependencyTable d) : String × Toml).1 dt
          pure (acc ++ [dep])
        | _ =>
          (.error "dependency entry must be a table" :
            Except String (List PackageDependency))) = .ok (acc ++ [d]) := by
      show (parseDependencyTable d.depAlias
        ([("address", Toml.str d.address), ("version", Toml.str d.version)] ++
          (match d.path with
           | some p => [("path", Toml.str p)]
           | none => [])) >>= fun dep => pure (acc ++ [dep])) = _
      rw [parseDependencyTable_build d (hd d (List.mem_cons_self d rest)),
        except_bind_ok]
      rfl
    rw [hstep]
    show (rest.map fun d => (d.depAlias, dependencyTable d)).foldlM _
      (acc ++ [d]) = _
    rw [ih (fun x hx => hd x (List.mem_cons_of_mem d hx)) (acc ++ [d]),
      List.append_assoc]
    rfl

/-- Casting a string-mapped TOML array back to strings. -/
theorem asStringList_map_str (ps : List String) :
    asStringList (ps.map .str) = .ok ps := by
  rw [asStringList_of_all_str _ (by simp [isStrToml]), strValues_map_str]

/-- All keys of the serialized [package] table are known. -/
theorem packageTable_known (m : MthdsPackageManifest) :
    ((packageTable m).all fun p => knownPackageKeys.contains p.1) = true := by
  unfold packageTable knownPackageKeys
  rcases m.display_name with _ | dn <;> rcases m.license with _ | li <;>
    rcases m.mthds_version with _ | mv <;>
    by_cases ha : m.authors.isEmpty = true <;>
    simp [ha]

/-- The serialized [package] table binds address. -/
theorem packageTable_address (m : MthdsPackageManifest) :
    Toml.get? (packageTable m) "address" = some (.str m.address) := by
  unfold packageTable
  simp [Toml.get?_cons]

/-- The serialized [package] table binds version. -/
theorem packageTable_version (m : MthdsPackageManifest) :
    Toml.get? (packageTable m) "version" = some (.str m.version) := by
  unfold packageTable
  rcases m.display_name with _ | dn <;> simp [Toml.get?_cons]

/-- The serialized [package] table binds description. -/
theorem packageTable_description (m : MthdsPackageManifest) :
    Toml.get? (packageTable m) "description" = some (.str m.description) := by
  unfold packageTable
  rcases m.display_name with _ | dn <;> simp [Toml.get?_cons]

/-- Reading authors back from the serialized [package] table. -/
theorem packageTable_authors (m : MthdsPackageManifest) :
    (match Toml.get? (packageTable m) "authors" with
     | some (.arr items) => asStringList items
     | _ => (pure [] : Except String (List String))) = .ok m.authors := by
  unfold packageTable
  by_cases ha : m.authors = []
  · rcases m.display_name with _ | dn <;> rcases m.license with _ | li <;>
      rcases m.mthds_version with _ | mv <;>
      simp [Toml.get?_cons, Toml.get?_nil, ha, except_pure]
  · have ha2 : m.authors.isEmpty = false := by
      simpa [List.isEmpty_iff] using ha
    rcases m.display_name with _ | dn <;> rcases m.license with _ | li <;>
      rcases m.mthds_version with _ | mv <;>
      simp [Toml.get?_cons, Toml.get?_nil, ha2, asStringList_map_str]

/-- Reading license back from the serialized [package] table. -/
theorem packageTable_license (m : MthdsPackageManifest) :
    (match Toml.get? (packageTable m) "license" with
     | none => none
     | some v => some (pyStr v)) = m.license := by
  unfold packageTable
  rcases m.display_name with _ | dn <;> rcases m.license with _ | li <;>
    rcases m.mthds_version with _ | mv <;>
    by_cases ha : m.authors.isEmpty = true <;>
    simp [Toml.get?_cons, Toml.get?_nil, ha, pyStr]

/-- Reading mthds_version back from the serialized [package] table. -/
theorem packageTable_mthds_version (m : MthdsPackageManifest) :
    (match Toml.get? (packageTable m) "mthds_version" with
     | none => none
     | some v => some (pyStr v)) = m.mthds_version := by
  unfold packageTable
  rcases m.display_name with _ | dn <;> rcases m.license with _ | li <;>
    rcases m.mthds_version with _ | mv <;>
    by_cases ha : m.authors.isEmpty = true <;>
    simp [Toml.get?_cons, Toml.get?_nil, ha, pyStr]

/-- Reading display_name back from the serialized [package] table. -/
theorem packageTable_display_name (m : MthdsPackageManifest) :
    (match Toml.get? (packageTable m) "display_name" with
     | none => none
     | some v => some (pyStr v)) = m.display_name := by
  unfold packageTable
  rcases m.display_name with _ | dn <;> rcases m.license with _ | li <;>
    rcases m.mthds_version with _ | mv <;>
    by_cases ha : m.authors.isEmpty = true <;>
    simp [Toml.get?_cons, Toml.get?_nil, ha, pyStr]

/-- The manifest model validators ignore the exports payload. -/
theorem pydanticManifest_exports_swap (a : String) (dn : Option String)
    (v de : String) (au : List String) (li mv : Option String)
    (deps : List PackageDependency) (E E2 : List DomainExports)
    (M : MthdsPackageManifest)
    (h : pydanticManifest a dn v de au li mv deps E = .ok M) :
    pydanticManifest a dn v de au li mv deps E2 =
      .ok { M with exports := E2 } := by
  unfold pydanticManifest at h ⊢
  split_ifs at h ⊢
  all_goals first
    | exact Except.noConfusion h
    | (injection h with h2; subst h2; rfl)

/-- Python str() of a TOML string. -/
theorem pyStr_str (s : String) : pyStr (.str s) = s := rfl

/-- Evaluation of parse_methods_toml from the values of its lookups. -/
theorem parse_methods_toml_eval (raw : List (String × Toml))
    (pkg depsEntries expsEntries : List (String × Toml))
    (deps : List PackageDependency) (exps : List DomainExports)
    (A V D : String) (AU : List String) (DN L MV : Option String)
    (hpkg : Toml.get? raw "package" = some (.table pkg))
    (hdeps : (Toml.get? raw "dependencies").getD (.table []) =
      .table depsEntries)
    (hexps : (Toml.get? raw "exports").getD (.table []) = .table expsEntries)
    (hfold : depsEntries.foldlM
      (fun acc kv =>
        match kv.2 with
        | .table dt => do
          let dep ← parseDependencyTable kv.1 dt
          pure (acc ++ [dep])
        | _ => .error "dependency entry must be a table")
      ([] : List PackageDependency) = .ok deps)
    (hwalk : walkEntriesA expsEntries "" = .ok exps)
    (hknown : (pkg.all fun p => knownPackageKeys.contains p.1) = true)
    (haddr : Toml.get? pkg "address" = some (.str A))
    (hver : Toml.get? pkg "version" = some (.str V))
    (hdesc : Toml.get? pkg "description" = some (.str D))
    (hauth : (match Toml.get? pkg "authors" with
      | some (.arr items) => asStringList items
      | _ => (pure [] : Except String (List String))) = .ok AU)
    (hlic : (match Toml.get? pkg "license" with
      | none => none
      | some v => some (pyStr v)) = L)
    (hmv : (match Toml.get? pkg "mthds_version" with
      | none => none
      | some v => some (pyStr v)) = MV)
    (hdn : (match Toml.get? pkg "display_name" with
      | none => none
      | some v => some (pyStr v)) = DN) :
    parse_methods_toml raw = pydanticManifest A DN V D AU L MV deps exps := by
  have hfold2 := hfold
  simp only [except_pure] at hfold2
  cases hA : Toml.get? pkg "authors" with
  | none =>
    rw [hA] at hauth
    have h2 : ([] : List String) = AU := by injection hauth
    subst h2
    simp only [parse_methods_toml, hpkg, hdeps, hexps, hfold2, hwalk, hknown,
      haddr, hver, hdesc, hA, hdn, hlic, hmv, except_bind_ok, except_pure,
      Option.getD_some, pyStr_str, Bool.not_true, Bool.false_eq_true,
      if_false]
  | some v =>
    rw [hA] at hauth
    cases v with
    | str sv =>
      have h2 : ([] : List String) = AU := by injection hauth
      subst h2
      simp only [parse_methods_toml, hpkg, hdeps, hexps, hfold2, hwalk,
        hknown, haddr, hver, hdesc, hA, hdn, hlic, hmv, except_bind_ok,
        except_pure, Option.getD_some, pyStr_str, Bool.not_true,
        Bool.false_eq_true, if_false]
    | table tv =>
      have h2 : ([] : List String) = AU := by injection hauth
      subst h2
      simp only [parse_methods_toml, hpkg, hdeps, hexps, hfold2, hwalk,
        hknown, haddr, hver, hdesc, hA, hdn, hlic, hmv, except_bind_ok,
        except_pure, Option.getD_some, pyStr_str, Bool.not_true,
        Bool.false_eq_true, if_false]
    | arr items =>
      have hauth2 : asStringList items = .ok AU := hauth
      simp only [parse_methods_toml, hpkg, hdeps, hexps, hfold2, hwalk,
        hknown, haddr, hver, hdesc, hA, hauth2, hdn, hlic, hmv,
        except_bind_ok, except_pure, Option.getD_some, pyStr_str,
        Bool.not_true, Bool.false_eq_true, if_false]

/-- A validated manifest has pairwise distinct dependency aliases. -/
theorem pydanticManifest_nodup (a : String) (dn : Option String)
    (v de : String) (au : List String) (li mv : Option String)
    (deps : List PackageDependency) (E : List DomainExports)
    (M : MthdsPackageManifest)
    (h : pydanticManifest a dn v de au li mv deps E = .ok M) :
    (deps.map fun d => d.depAlias).Nodup := by
  unfold pydanticManifest at h
  split_ifs at h with h1 h2 h3 h4 h5 h6 h7 h8 h9 h10
  simpa using h10

/-- Parsing back a successfully serialized exports tree yields the exports
up to permutation. -/
theorem exports_side (M : MthdsPackageManifest) (tree : List (String × Toml))
    (HE : ∀ e ∈ M.exports,
      pydanticDomainExports e.domain_path e.pipes = .ok e)
    (Hnp : ∀ e ∈ M.exports,
      ((domainSegments e.domain_path).all fun s => !(s == "pipes")) = true)
    (Hhd : ∀ e ∈ M.exports, e.domain_path.toList.head? ≠ some '.')
    (hT : serializeExports M.exports = .ok tree) :
    ∃ es, walkEntriesA tree "" = .ok es ∧ List.Perm es M.exports := by
  unfold serializeExports at hT
  obtain ⟨hwf, hperm, hpipes⟩ :=
    serializeExports_entries M.exports [] tree wfTree_nil Hnp hT
  rw [Toml.get?_nil] at hpipes
  rw [nodeEntries_nil, List.append_nil] at hperm
  have h2 : (M.exports.map fun e =>
      (joinAt "" (domainSegments e.domain_path), e.pipes)) =
      M.exports.map fun e => (e.domain_path, e.pipes) :=
    List.map_congr_left fun e he => by
      rw [joinAt_domainSegments _ (Hhd e he)]
  rw [h2] at hperm
  have hwalk : walkEntriesA tree "" = okEntries (subEntries tree "") :=
    (walk_correct (sizeOf tree)).1 tree "" (le_refl _) hwf
  rw [← nodeEntries_nopipes tree "" hpipes] at hwalk
  have hok : okEntries (nodeEntries tree "") =
      .ok ((nodeEntries tree "").map fun x => ⟨x.1, x.2⟩) := by
    apply okEntries_all_ok
    intro x hx
    have hx2 : x ∈ M.exports.map fun e => (e.domain_path, e.pipes) :=
      hperm.subset hx
    rcases List.mem_map.mp hx2 with ⟨e, he, hxe⟩
    subst hxe
    exact (HE e he).trans (by rfl)
  refine ⟨(nodeEntries tree "").map fun x => ⟨x.1, x.2⟩, ?_, ?_⟩
  · rw [hwalk, hok]
  · have h3 := hperm.map fun x => (⟨x.1, x.2⟩ : DomainExports)
    rw [map_pair_eta] at h3
    exact h3

/-- C6: For every manifest accepted by the model validators whose dependency
and export entries individually re-validate, whose export domain paths do
not start with a dot and contain no segment literally named pipes, and
whose serialization succeeds, parsing the serialized document returns the
manifest with its exports permuted (the nested exports tree groups sibling
domains, so only the multiset of exports is preserved). -/
theorem manifest_round_trip (M : MthdsPackageManifest)
    (doc : List (String × Toml))
    (HV : pydanticManifest M.address M.display_name M.version M.description
      M.authors M.license M.mthds_version M.dependencies M.exports = .ok M)
    (HD : ∀ d ∈ M.dependencies,
      pydanticDependency d.address d.version d.depAlias d.path = .ok d)
    (HE : ∀ e ∈ M.exports,
      pydanticDomainExports e.domain_path e.pipes = .ok e)
    (Hnp : ∀ e ∈ M.exports,
      ((domainSegments e.domain_path).all fun s => !(s == "pipes")) = true)
    (Hhd : ∀ e ∈ M.exports, e.domain_path.toList.head? ≠ some '.')
    (Hser : serialize_manifest_to_toml M = .ok doc) :
    ∃ es, parse_methods_toml doc = .ok { M with exports := es } ∧
      List.Perm es M.exports := by
  have hND := pydanticManifest_nodup _ _ _ _ _ _ _ _ _ _ HV
  have hDB := depsBuild M.dependencies [] hND (fun d _ => rfl)
  rw [List.nil_append] at hDB
  have hPF0 := depsParse M.dependencies HD []
  rw [List.nil_append] at hPF0
  unfold serialize_manifest_to_toml at Hser
  by_cases hde : M.dependencies.isEmpty = true
  · have hde2 : M.dependencies = [] := by simpa [List.isEmpty_iff] using hde
    by_cases hee : M.exports.isEmpty = true
    · have hee2 : M.exports = [] := by simpa [List.isEmpty_iff] using hee
      simp only [hde, hee, eq_self_iff_true, if_true, except_pure,
        except_bind_ok] at Hser
      injection Hser with hdoc
      subst hdoc
      refine ⟨[], ?_, hee2 ▸ List.Perm.nil⟩
      rw [parse_methods_toml_eval _ (packageTable M) []
        [] M.dependencies [] M.address M.version M.description M.authors
        M.display_name M.license M.mthds_version
        (by simp [Toml.get?_cons]) (by simp [Toml.get?_cons, Toml.get?_nil])
        (by simp [Toml.get?_cons, Toml.get?_nil])
        (by rw [hde2]; rfl) (walkEntriesA_nil "")
        (packageTable_known M) (packageTable_address M)
        (packageTable_version M) (packageTable_description M)
        (packageTable_authors M) (packageTable_license M)
        (packageTable_mthds_version M) (packageTable_display_name M)]
      exact pydanticManifest_exports_swap _ _ _ _ _ _ _ _ _ _ _ HV
    · have hee3 : M.exports.isEmpty = false := by simpa using hee
      cases hT : serializeExports M.exports with
      | error e =>
        simp only [hde, hee3, eq_self_iff_true, if_true, Bool.false_eq_true,
          if_false, hT, except_pure, except_bind_ok,
          except_bind_error] at Hser
        exact Except.noConfusion Hser
      | ok tree =>
        simp only [hde, hee3, eq_self_iff_true, if_true, Bool.false_eq_true,
          if_false, hT, except_pure, except_bind_ok] at Hser
        injection Hser with hdoc
        subst hdoc
        obtain ⟨es, hwalkes, hpermes⟩ := exports_side M tree HE Hnp Hhd hT
        refine ⟨es, ?_, hpermes⟩
        rw [parse_methods_toml_eval _ (packageTable M) []
          tree M.dependencies es M.address M.version M.description M.authors
          M.display_name M.license M.mthds_version
          (by simp [Toml.get?_cons])
          (by simp [Toml.get?_cons, Toml.get?_nil])
          (by simp [Toml.get?_cons, Toml.get?_nil])
          (by rw [hde2]; rfl) hwalkes
          (packageTable_known M) (packageTable_address M)
          (packageTable_version M) (packageTable_description M)
          (packageTable_authors M) (packageTable_license M)
          (packageTable_mthds_version M) (packageTable_display_name M)]
        exact pydanticManifest_exports_swap _ _ _ _ _ _ _ _ _ _ _ HV
  · have hde3 : M.dependencies.isEmpty = false := by simpa using hde
    by_cases hee : M.exports.isEmpty = true
    · have hee2 : M.exports = [] := by simpa [List.isEmpty_iff] using hee
      simp only [hde3, Bool.false_eq_true, if_false, hDB, hee,
        eq_self_iff_true, if_true, except_pure, except_bind_ok] at Hser
      injection Hser with hdoc
      subst hdoc
      refine ⟨[], ?_, hee2 ▸ List.Perm.nil⟩
      rw [parse_methods_toml_eval _ (packageTable M)
        (M.dependencies.map fun d => (d.depAlias, dependencyTable d))
        [] M.dependencies [] M.address M.version M.description M.authors
        M.display_name M.license M.mthds_version
        (by simp [Toml.get?_cons]) (by simp [Toml.get?_cons, Toml.get?_nil])
        (by simp [Toml.get?_cons, Toml.get?_nil])
        hPF0 (walkEntriesA_nil "")
        (packageTable_known M) (packageTable_address M)
        (packageTable_version M) (packageTable_description M)
        (packageTable_authors M) (packageTable_license M)
        (packageTable_mthds_version M) (packageTable_display_name M)]
      exact pydanticManifest_exports_swap _ _ _ _ _ _ _ _ _ _ _ HV
    · have hee3 : M.exports.isEmpty = false := by simpa using hee
      cases hT : serializeExports M.exports with
      | error e =>
        simp only [hde3, hee3, Bool.false_eq_true, if_false, hDB, hT,
          except_pure, except_bind_ok, except_bind_error] at Hser
        exact Except.noConfusion Hser
      | ok tree =>
        simp only [hde3, hee3, Bool.false_eq_true, if_false, hDB, hT,
          except_pure, except_bind_ok] at Hser
        injection Hser with hdoc
        subst hdoc
        obtain ⟨es, hwalkes, hpermes⟩ := exports_side M tree HE Hnp Hhd hT
        refine ⟨es, ?_, hpermes⟩
        rw [parse_methods_toml_eval _ (packageTable M)
          (M.dependencies.map fun d => (d.depAlias, dependencyTable d))
          tree M.dependencies es M.address M.version M.description M.authors
          M.display_name M.license M.mthds_version
          (by simp [Toml.get?_cons])
          (by simp [Toml.get?_cons, Toml.get?_nil])
          (by simp [Toml.get?_cons, Toml.get?_nil])
          hPF0 hwalkes
          (packageTable_known M) (packageTable_address M)
          (packageTable_version M) (packageTable_description M)
          (packageTable_authors M) (packageTable_license M)
          (packageTable_mthds_version M) (packageTable_display_name M)]
        exact pydanticManifest_exports_swap _ _ _ _ _ _ _ _ _ _ _ HV

/-- C6 counterexample: the manifest whose single export has domain path
a.pipes passes every model validator and serializes successfully, yet
parsing the serialized document fails with an error (the final path
segment collides with the pipes key of the nested exports tree), refuting
the round trip for arbitrary valid manifests. -/
theorem manifest_round_trip_counterexample :
    pydanticDomainExports "a.pipes" ["p_one"] = .ok ⟨"a.pipes", ["p_one"]⟩ ∧
    pydanticManifest "github.com/acme/pkg" none "1.0.0" "test" [] none none
      [] [⟨"a.pipes", ["p_one"]⟩] =
      .ok ⟨"github.com/acme/pkg", none, "1.0.0", "test", [], none, none, [],
        [⟨"a.pipes", ["p_one"]⟩]⟩ ∧
    serialize_manifest_to_toml
      ⟨"github.com/acme/pkg", none, "1.0.0", "test", [], none, none, [],
        [⟨"a.pipes", ["p_one"]⟩]⟩ =
      .ok [("package", .table [("address", .str "github.com/acme/pkg"),
          ("version", .str "1.0.0"), ("description", .str "test")]),
        ("exports", .table [("a", .table [("pipes",
          .table [("pipes", .arr [.str "p_one"])])])])] ∧
    parse_methods_toml
      [("package", .table [("address", .str "github.com/acme/pkg"),
          ("version", .str "1.0.0"), ("description", .str "test")]),
        ("exports", .table [("a", .table [("pipes",
          .table [("pipes", .arr [.str "p_one"])])])])] =
      .error "pipes must be a list" := by
  refine ⟨?_, rfl, rfl, ?_⟩
  · unfold pydanticDomainExports
    rw [show is_domain_code_valid "a.pipes" = true from by
      simp [is_domain_code_valid, domainCodeValidChars, splitCrossPackageMark,
        hasDoubleDot, splitOnDotCh, isSnakeChars, isLowerAlpha, isSnakeBody,
        isDigitCh]]
    rfl
  · simp [parse_methods_toml, Toml.get?_cons, Toml.get?_nil, walkEntriesA_cons,
      walkEntriesA_nil, walkValue_table, walkSubsB_nil, walkSubsB_cons_table,
      walkSubsB_cons_arr, walkSubsB_cons_str, except_bind_error]

/-- Witness: the round-trip theorem applied to a concrete one-export
manifest and its serialized document. -/
theorem manifest_round_trip_witness :
    ∃ es, parse_methods_toml
      [("package", Toml.table [("address", Toml.str "github.com/acme/pkg"),
          ("version", Toml.str "1.0.0"), ("description", Toml.str "test")]),
        ("exports", Toml.table [("scoring", Toml.table
          [("pipes", Toml.arr [Toml.str "p_one"])])])] =
      .ok { (⟨"github.com/acme/pkg", none, "1.0.0", "test", [], none, none,
        [], [⟨"scoring", ["p_one"]⟩]⟩ : MthdsPackageManifest) with
          exports := es } ∧
      List.Perm es
        (MthdsPackageManifest.exports
          ⟨"github.com/acme/pkg", none, "1.0.0", "test", [], none, none,
            [], [⟨"scoring", ["p_one"]⟩]⟩) :=
  manifest_round_trip
    ⟨"github.com/acme/pkg", none, "1.0.0", "test", [], none, none, [],
      [⟨"scoring", ["p_one"]⟩]⟩
    [("package", Toml.table [("address", Toml.str "github.com/acme/pkg"),
        ("version", Toml.str "1.0.0"), ("description", Toml.str "test")]),
      ("exports", Toml.table [("scoring", Toml.table
        [("pipes", Toml.arr [Toml.str "p_one"])])])]
    rfl
    (fun d hd => absurd hd (by simp))
    (fun e he => by
      rw [List.mem_singleton] at he
      subst he
      unfold pydanticDomainExports
      rw [show is_domain_code_valid "scoring" = true from by
        simp [is_domain_code_valid, domainCodeValidChars,
          splitCrossPackageMark, hasDoubleDot, splitOnDotCh, isSnakeChars,
          isLowerAlpha, isSnakeBody, isDigitCh]]
      rfl)
    (fun e he => by
      rw [List.mem_singleton] at he
      subst he
      decide)
    (fun e he => by
      rw [List.mem_singleton] at he
      subst he
      decide)
    rfl

/-! ## Transitive dependency resolution
(src/mthds/packages/dependency_resolver.py)

The VCS and cache layers are abstracted into a pure world: versions are
naturals ordered by the semver comparison (abstracted to ≤ as in the semver
section), `tags` is the list_remote_version_tags result per address,
`sat v c` the version_satisfies test of version v against constraint
string c, and `manifestOf a v` the manifest found in the fetched package
(none models a package without a METHODS.toml).  Cache hits and clone I/O
do not change the resolved result and are dropped; VCS fetch failures are
outside the modelled world.  The recursion of _resolve_transitive_tree is
fueled: every recursive call consumes one unit, and exhaustion is the
distinct fuelOut outcome. -/

/-- The manifest data the resolver reads: the declared package version and
the dependency list. -/
structure RManifest where
  version : Nat
  dependencies : List PackageDependency
deriving DecidableEq, Repr

/-- Embeds ResolvedDependency restricted to the fields the transitive
resolver consults (paths and file lists are I/O artifacts). -/
structure RResolvedDependency where
  depAlias : String
  address : String
  manifest : Option RManifest
deriving DecidableEq, Repr

/-- The pure remote world. -/
structure RepoWorld where
  tags : String → List Nat
  sat : Nat → String → Bool
  manifestOf : String → Nat → Option RManifest

/-- Python dict lookup over an insertion-ordered association list. -/
def dictGet {α : Type} (m : List (String × α)) (k : String) : Option α :=
  (m.find? fun p => p.1 == k).map (·.2)

/-- Python dict assignment: overwrite in place or append. -/
def dictSet {α : Type} (m : List (String × α)) (k : String) (v : α) :
    List (String × α) :=
  if m.any fun p => p.1 == k then
    m.map fun p => if p.1 == k then (k, v) else p
  else m ++ [(k, v)]

/-- Python dict.pop: drop the binding of a key. -/
def dictPop {α : Type} (m : List (String × α)) (k : String) :
    List (String × α) :=
  m.filter fun p => !(p.1 == k)

/-- Track a constraint: ensure the address key exists and append. -/
def cbaAppend (m : List (String × List String)) (k v : String) :
    List (String × List String) :=
  match dictGet m k with
  | some lst => dictSet m k (lst ++ [v])
  | none => m ++ [(k, [v])]

/-- The mutable resolver state threaded through the DFS. -/
structure ResolutionState where
  resolution_stack : List String
  resolved_map : List (String × RResolvedDependency)
  constraints_by_address : List (String × List String)
deriving DecidableEq, Repr

/-- The failure outcomes of the transitive resolver: the two
TransitiveDependencyError messages (cycle detection and unsatisfiable
diamond constraints), the DependencyResolveError cases, and fuel
exhaustion of this embedding. -/
inductive ResolveError where
  | cycle (address : String)
  | conflict (address : String)
  | resolveFail (address : String)
  | fuelOut
deriving DecidableEq, Repr

/-- The remote (non-path) dependencies of a list. -/
def remoteOnly (deps : List PackageDependency) : List PackageDependency :=
  deps.filter fun d => d.path.isNone

/-- Embeds resolve_remote_dependency: list the address's version tags and
select the minimum version satisfying the constraint; failure (no tags or
no satisfying version) is a DependencyResolveError. -/
def resolve_remote_dependency (w : RepoWorld) (dep : PackageDependency) :
    Except ResolveError RResolvedDependency :=
  match select_minimum_version (V := Nat) (· ≤ ·) (w.tags dep.address)
      (fun v => w.sat v dep.version) with
  | none => .error (.resolveFail dep.address)
  | some v => .ok ⟨dep.depAlias, dep.address, w.manifestOf dep.address v⟩

/-- Embeds _resolve_with_multiple_constraints: select the minimum version
satisfying every constraint; failure is a TransitiveDependencyError. -/
def resolveWithMultipleConstraints (w : RepoWorld) (address depAlias : String)
    (constraints : List String) : Except ResolveError RResolvedDependency :=
  match select_minimum_version_for_multiple_constraints (V := Nat) (· ≤ ·)
      (w.tags address) (constraints.map fun c => fun v => w.sat v c) with
  | none => .error (.conflict address)
  | some v => .ok ⟨depAlias, address, w.manifestOf address v⟩

/-- Embeds _remove_stale_subdep_constraints: walk the replaced version's
sub-dependencies, remove the constraint each contributed, and when a
constraint list empties, drop the address and recursively clean up the
popped entry.  The recursion depth is bounded by the resolved-map size
(each recursive call follows a pop), so the fuel the caller passes is
never exhausted; on exhaustion the state is returned unchanged. -/
def removeStaleGo : Nat → List PackageDependency →
    List (String × RResolvedDependency) × List (String × List String) →
    List (String × RResolvedDependency) × List (String × List String)
  | _, [], m => m
  | fuel, sub :: rest, m =>
    if sub.path.isSome then removeStaleGo fuel rest m
    else
      match dictGet m.2 sub.address with
      | none => removeStaleGo fuel rest m
      | some lst =>
        if sub.version ∈ lst then
          if (lst.erase sub.version).isEmpty then
            match dictGet m.1 sub.address with
            | some old =>
              match fuel with
              | 0 => removeStaleGo 0 rest
                  (dictPop m.1 sub.address, dictPop m.2 sub.address)
              | fuel2 + 1 =>
                removeStaleGo (fuel2 + 1) rest
                  (removeStaleGo fuel2
                    (match old.manifest with
                     | some man => man.dependencies
                     | none => [])
                    (dictPop m.1 sub.address, dictPop m.2 sub.address))
            | none => removeStaleGo fuel rest (m.1, dictPop m.2 sub.address)
          else
            removeStaleGo fuel rest
              (m.1, dictSet m.2 sub.address (lst.erase sub.version))
        else removeStaleGo fuel rest m
termination_by fuel deps _ => (fuel, deps.length)

/-- Entry point of the stale-constraint cleanup (None manifest: no-op). -/
def removeStale (fuel : Nat) (man : Option RManifest)
    (m : List (String × RResolvedDependency) × List (String × List String)) :
    List (String × RResolvedDependency) × List (String × List String) :=
  match man with
  | none => m
  | some mn => removeStaleGo fuel mn.dependencies m

/-- Embeds _resolve_transitive_tree: DFS over remote dependencies with the
resolution stack for cycle detection, constraint tracking per address, the
already-resolved skip, diamond re-resolution with stale-constraint cleanup,
and recursion into the resolved version's remote sub-dependencies.  Every
recursive call consumes one unit of fuel. -/
def _resolve_transitive_tree (w : RepoWorld) :
    Nat → List PackageDependency → ResolutionState →
    Except ResolveError ResolutionState
  | 0, _, _ => .error .fuelOut
  | _ + 1, [], st => .ok st
  | fuel + 1, dep :: rest, st =>
    if dep.path.isSome then _resolve_transitive_tree w fuel rest st
    else if st.resolution_stack.contains dep.address then
      .error (.cycle dep.address)
    else
      match dictGet st.resolved_map dep.address with
      | some existing =>
        if (match existing.manifest with
            | some man => w.sat man.version dep.version
            | none => false) then
          _resolve_transitive_tree w fuel rest
            { st with constraints_by_address :=
                cbaAppend st.constraints_by_address dep.address dep.version }
        else
          match resolveWithMultipleConstraints w dep.address dep.depAlias
              ((dictGet (removeStale st.resolved_map.length existing.manifest
                (st.resolved_map,
                 cbaAppend st.constraints_by_address dep.address
                   dep.version)).2 dep.address).getD []) with
          | .error e => .error e
          | .ok re_resolved =>
            match (match re_resolved.manifest with
              | some man => remoteOnly man.dependencies
              | none => []) with
            | [] =>
              _resolve_transitive_tree w fuel rest
                ⟨st.resolution_stack,
                  dictSet (removeStale st.resolved_map.length
                    existing.manifest
                    (st.resolved_map,
                     cbaAppend st.constraints_by_address dep.address
                       dep.version)).1 dep.address re_resolved,
                  (removeStale st.resolved_map.length existing.manifest
                    (st.resolved_map,
                     cbaAppend st.constraints_by_address dep.address
                       dep.version)).2⟩
            | sub :: subsRest =>
              match _resolve_transitive_tree w fuel (sub :: subsRest)
                  ⟨dep.address :: st.resolution_stack,
                    dictSet (removeStale st.resolved_map.length
                      existing.manifest
                      (st.resolved_map,
                       cbaAppend st.constraints_by_address dep.address
                         dep.version)).1 dep.address re_resolved,
                    (removeStale st.resolved_map.length existing.manifest
                      (st.resolved_map,
                       cbaAppend st.constraints_by_address dep.address
                         dep.version)).2⟩
                with
              | .error e => .error e
              | .ok st2 =>
                _resolve_transitive_tree w fuel rest
                  ⟨st2.resolution_stack.erase dep.address, st2.resolved_map,
                    st2.constraints_by_address⟩
      | none =>
        match (if 1 < ((dictGet (cbaAppend st.constraints_by_address
              dep.address dep.version) dep.address).getD []).length then
            resolveWithMultipleConstraints w dep.address dep.depAlias
              ((dictGet (cbaAppend st.constraints_by_address dep.address
                dep.version) dep.address).getD [])
          else resolve_remote_dependency w dep) with
        | .error e => .error e
        | .ok resolved_dep =>
          match (match resolved_dep.manifest with
            | some man => remoteOnly man.dependencies
            | none => []) with
          | [] =>
            _resolve_transitive_tree w fuel rest
              ⟨st.resolution_stack,
                dictSet st.resolved_map dep.address resolved_dep,
                cbaAppend st.constraints_by_address dep.address dep.version⟩
          | sub :: subsRest =>
            match _resolve_transitive_tree w fuel (sub :: subsRest)
                ⟨dep.address :: st.resolution_stack,
                  dictSet st.resolved_map dep.address resolved_dep,
                  cbaAppend st.constraints_by_address dep.address dep.version⟩
              with
            | .error e => .error e
            | .ok st2 =>
              _resolve_transitive_tree w fuel rest
                ⟨st2.resolution_stack.erase dep.address, st2.resolved_map,
                  st2.constraints_by_address⟩

/-- Embeds the remote phase of resolve_all_dependencies: local path
dependencies are resolved directly without recursion (their filesystem
handling carries no remote edges), the remote ones transitively from an
empty state. -/
def resolve_all_dependencies (w : RepoWorld) (fuel : Nat)
    (manifest : RManifest) : Except ResolveError ResolutionState :=
  _resolve_transitive_tree w fuel (remoteOnly manifest.dependencies)
    ⟨[], [], []⟩

/-- The remote dependency addresses a manifest declares. -/
def remoteAddresses (man : RManifest) : List String :=
  (remoteOnly man.dependencies).map (·.address)

/-- The remote dependency graph of a world: a points to b when some tagged
version of a has a manifest declaring a remote dependency on b. -/
def depEdge (w : RepoWorld) (a b : String) : Prop :=
  ∃ v ∈ w.tags a, ∃ man, w.manifestOf a v = some man ∧ b ∈ remoteAddresses man

/-- A selected minimum version is one of the available versions. -/
theorem select_minimum_version_mem {V : Type} (r : V → V → Prop)
    [DecidableRel r] (l : List V) (c : V → Bool) (v : V)
    (h : select_minimum_version r l c = some v) : v ∈ l := by
  unfold select_minimum_version at h
  exact (List.perm_insertionSort r l).mem_iff.mp (List.mem_of_find?_eq_some h)

/-- A selected multi-constraint version is one of the available versions. -/
theorem select_minimum_version_multi_mem {V : Type} (r : V → V → Prop)
    [DecidableRel r] (l : List V) (cs : List (V → Bool)) (v : V)
    (h : select_minimum_version_for_multiple_constraints r l cs = some v) :
    v ∈ l := by
  unfold select_minimum_version_for_multiple_constraints at h
  exact (List.perm_insertionSort r l).mem_iff.mp (List.mem_of_find?_eq_some h)

/-- A successful single resolve reports the requested address with the
manifest of one of its tagged versions. -/
theorem resolve_remote_dependency_spec (w : RepoWorld)
    (dep : PackageDependency) (rd : RResolvedDependency)
    (h : resolve_remote_dependency w dep = .ok rd) :
    rd.address = dep.address ∧
    ∃ v ∈ w.tags dep.address, rd.manifest = w.manifestOf dep.address v := by
  unfold resolve_remote_dependency at h
  cases hs : select_minimum_version (V := Nat) (· ≤ ·) (w.tags dep.address)
      (fun v => w.sat v dep.version) with
  | none => rw [hs] at h; exact Except.noConfusion h
  | some v =>
    rw [hs] at h
    injection h with h
    subst h
    exact ⟨rfl, v, select_minimum_version_mem _ _ _ v hs, rfl⟩

/-- A successful multi-constraint resolve reports the requested address
with the manifest of one of its tagged versions. -/
theorem resolveWithMultipleConstraints_spec (w : RepoWorld)
    (address depAlias : String) (cs : List String) (rd : RResolvedDependency)
    (h : resolveWithMultipleConstraints w address depAlias cs = .ok rd) :
    rd.address = address ∧
    ∃ v ∈ w.tags address, rd.manifest = w.manifestOf address v := by
  unfold resolveWithMultipleConstraints at h
  cases hs : select_minimum_version_for_multiple_constraints (V := Nat)
      (· ≤ ·) (w.tags address) (cs.map fun c => fun v => w.sat v c) with
  | none => rw [hs] at h; exact Except.noConfusion h
  | some v =>
    rw [hs] at h
    injection h with h
    subst h
    exact ⟨rfl, v, select_minimum_version_multi_mem _ _ _ v hs, rfl⟩

/-- The resolution stack is a chain of remote edges: each entry was pushed
while recursing from the entry below it. -/
def stackChain (w : RepoWorld) : List String → Prop
  | [] => True
  | [_] => True
  | a :: b :: rest => depEdge w b a ∧ stackChain w (b :: rest)

/-- The remote dependencies currently being processed all come from the
manifest resolved for the top of the stack. -/
def depsSourced (w : RepoWorld) (stack : List String)
    (deps : List PackageDependency) : Prop :=
  match stack with
  | [] => True
  | top :: _ => ∀ dep ∈ deps, dep.path = none → depEdge w top dep.address

/-- Climbing a stack chain from any deeper entry to the top is a non-empty
edge path. -/
theorem stackChain_path (w : RepoWorld) :
    ∀ (rest : List String) (top a : String),
    stackChain w (top :: rest) → a ∈ rest →
    Relation.TransGen (depEdge w) a top := by
  intro rest
  induction rest with
  | nil => intro top a _ ha; exact absurd ha (List.not_mem_nil a)
  | cons b rest2 ih =>
    intro top a hch ha
    have hedge : depEdge w b top := hch.1
    rcases List.mem_cons.mp ha with h | h
    · subst h
      exact Relation.TransGen.single hedge
    · exact (ih b a hch.2 h).tail hedge

/-- A stack member receiving one more edge from the top closes a cycle. -/
theorem stackChain_cycle (w : RepoWorld) (stack : List String) (a : String)
    (hch : stackChain w stack) (hmem : a ∈ stack)
    (htop : ∀ top rest2, stack = top :: rest2 → depEdge w top a) :
    ∃ c, Relation.TransGen (depEdge w) c c := by
  cases stack with
  | nil => exact absurd hmem (List.not_mem_nil a)
  | cons top rest2 =>
    have hedge : depEdge w top a := htop top rest2 rfl
    rcases List.mem_cons.mp hmem with h | h
    · subst h
      exact ⟨a, Relation.TransGen.single hedge⟩
    · exact ⟨a, (stackChain_path w rest2 top a hch h).tail hedge⟩

/-- A successful transitive resolution restores the resolution stack it was
given (every push is matched by the discard in the finally block). -/
theorem resolveTree_stack (w : RepoWorld) :
    ∀ (fuel : Nat) (deps : List PackageDependency) (st st2 : ResolutionState),
    _resolve_transitive_tree w fuel deps st = .ok st2 →
    st2.resolution_stack = st.resolution_stack := by
  intro fuel
  induction fuel with
  | zero =>
    intro deps st st2 h
    rw [_resolve_transitive_tree] at h
    exact Except.noConfusion h
  | succ fuel ih =>
    intro deps st st2 h
    cases deps with
    | nil =>
      rw [_resolve_transitive_tree] at h
      injection h with h
      rw [← h]
    | cons dep rest =>
      rw [_resolve_transitive_tree] at h
      split at h
      · exact ih rest st st2 h
      · split at h
        · exact Except.noConfusion h
        · split at h
          · split at h
            · have h9 := ih rest _ st2 h
              exact h9
            · split at h
              · exact Except.noConfusion h
              · split at h
                · have h9 := ih rest _ st2 h
                  exact h9
                · split at h
                  · exact Except.noConfusion h
                  · rename_i st3 hst3
                    have h1 := ih _ _ st3 hst3
                    have h2 : st2.resolution_stack =
                        st3.resolution_stack.erase dep.address :=
                      ih rest _ st2 h
                    rw [h2, h1, List.erase_cons_head]
          · split at h
            · exact Except.noConfusion h
            · split at h
              · have h9 := ih rest _ st2 h
                exact h9
              · split at h
                · exact Except.noConfusion h
                · rename_i st3 hst3
                  have h1 := ih _ _ st3 hst3
                  have h2 : st2.resolution_stack =
                      st3.resolution_stack.erase dep.address :=
                    ih rest _ st2 h
                  rw [h2, h1, List.erase_cons_head]

/-- The multi-constraint resolver never reports a cycle. -/
theorem resolveWithMultipleConstraints_ne_cycle (w : RepoWorld)
    (address depAlias : String) (cs : List String) (a : String) :
    resolveWithMultipleConstraints w address depAlias cs ≠
      .error (.cycle a) := by
  unfold resolveWithMultipleConstraints
  split
  · intro h
    injection h with h
    exact ResolveError.noConfusion h
  · intro h
    exact Except.noConfusion h

/-- The single resolver never reports a cycle. -/
theorem resolve_remote_dependency_ne_cycle (w : RepoWorld)
    (dep : PackageDependency) (a : String) :
    resolve_remote_dependency w dep ≠ .error (.cycle a) := by
  unfold resolve_remote_dependency
  split
  · intro h
    injection h with h
    exact ResolveError.noConfusion h
  · intro h
    exact Except.noConfusion h

/-- Sourcing restricts to the tail of the dependency list. -/
theorem depsSourced_tail (w : RepoWorld) (stack : List String)
    (dep : PackageDependency) (rest : List PackageDependency)
    (h : depsSourced w stack (dep :: rest)) : depsSourced w stack rest := by
  cases stack with
  | nil => trivial
  | cons top r =>
    exact fun d hd hp => h d (List.mem_cons_of_mem dep hd) hp

/-- The head of a sourced dependency list is an edge from the stack top. -/
theorem depsSourced_head (w : RepoWorld) (stack : List String)
    (dep : PackageDependency) (rest : List PackageDependency)
    (h : depsSourced w stack (dep :: rest)) (hp : dep.path = none) :
    ∀ top r2, stack = top :: r2 → depEdge w top dep.address := by
  intro top r2 hst
  subst hst
  exact h dep (List.mem_cons_self dep rest) hp

/-- Pushing a dependency of the current top extends the stack chain. -/
theorem stackChain_push (w : RepoWorld) (stack : List String) (b : String)
    (hch : stackChain w stack)
    (hedge : ∀ top r2, stack = top :: r2 → depEdge w top b) :
    stackChain w (b :: stack) := by
  cases stack with
  | nil => trivial
  | cons top r => exact ⟨hedge top r rfl, hch⟩

/-- Every remote dependency of a tagged version's manifest is an edge. -/
theorem manifest_subs_edges (w : RepoWorld) (address : String)
    (man : RManifest) (v : Nat) (hv : v ∈ w.tags address)
    (hm : w.manifestOf address v = some man) :
    ∀ d ∈ remoteOnly man.dependencies, d.path = none →
      depEdge w address d.address := by
  intro d hd _
  exact ⟨v, hv, man, hm, List.mem_map_of_mem _ hd⟩

/-- A cycle error is only ever raised along a genuine directed cycle of the
remote dependency graph: the resolution stack is an edge chain, and the
offending dependency closes it. -/
theorem resolveTree_cycle_sound (w : RepoWorld) :
    ∀ (fuel : Nat) (deps : List PackageDependency) (st : ResolutionState)
      (a : String),
    stackChain w st.resolution_stack →
    depsSourced w st.resolution_stack deps →
    _resolve_transitive_tree w fuel deps st = .error (.cycle a) →
    ∃ c, Relation.TransGen (depEdge w) c c := by
  intro fuel
  induction fuel with
  | zero =>
    intro deps st a _ _ h
    rw [_resolve_transitive_tree] at h
    injection h with h
    exact ResolveError.noConfusion h
  | succ fuel ih =>
    intro deps st a hch hsrc h
    cases deps with
    | nil =>
      rw [_resolve_transitive_tree] at h
      exact Except.noConfusion h
    | cons dep rest =>
      rw [_resolve_transitive_tree] at h
      split at h
      · exact ih rest st a hch (depsSourced_tail w _ dep rest hsrc) h
      · rename_i hpath
        have hpnone : dep.path = none := by
          cases hp : dep.path
          · rfl
          · rw [hp] at hpath
            simp at hpath
        split at h
        · rename_i hcont
          refine stackChain_cycle w st.resolution_stack dep.address hch ?_ ?_
          · simpa using hcont
          · exact depsSourced_head w _ dep rest hsrc hpnone
        · split at h
          · split at h
            · refine ih rest _ a ?_ ?_ h
              · show stackChain w st.resolution_stack
                exact hch
              · show depsSourced w st.resolution_stack rest
                exact depsSourced_tail w _ dep rest hsrc
            · split at h
              · rename_i e heq
                injection h with h
                subst h
                exact absurd heq
                  (resolveWithMultipleConstraints_ne_cycle w _ _ _ _)
              · rename_i re_resolved heq1
                split at h
                · refine ih rest _ a ?_ ?_ h
                  · show stackChain w st.resolution_stack
                    exact hch
                  · show depsSourced w st.resolution_stack rest
                    exact depsSourced_tail w _ dep rest hsrc
                · rename_i sub subsRest heq2
                  split at h
                  · rename_i e heq3
                    injection h with h
                    subst h
                    rcases resolveWithMultipleConstraints_spec w dep.address
                      dep.depAlias _ re_resolved heq1 with ⟨-, v, hv, hman⟩
                    cases hrm : re_resolved.manifest with
                    | none =>
                      rw [hrm] at heq2
                      exact List.noConfusion heq2
                    | some man =>
                      rw [hrm] at hman
                      have heq2b : remoteOnly man.dependencies =
                          sub :: subsRest := by
                        rw [hrm] at heq2
                        exact heq2
                      refine ih (sub :: subsRest) _ a ?_ ?_ heq3
                      · exact stackChain_push w st.resolution_stack dep.address
                          hch (depsSourced_head w _ dep rest hsrc hpnone)
                      · intro d hd hp
                        refine manifest_subs_edges w dep.address man v hv
                          hman.symm d ?_ hp
                        rw [heq2b]
                        exact hd
                  · rename_i st2 heq3
                    have hstkb : st2.resolution_stack =
                        dep.address :: st.resolution_stack :=
                      resolveTree_stack w fuel (sub :: subsRest) _ st2 heq3
                    have hstk2 : st2.resolution_stack.erase dep.address =
                        st.resolution_stack := by
                      rw [hstkb, List.erase_cons_head]
                    refine ih rest _ a ?_ ?_ h
                    · show stackChain w (st2.resolution_stack.erase dep.address)
                      rw [hstk2]
                      exact hch
                    · show depsSourced w
                        (st2.resolution_stack.erase dep.address) rest
                      rw [hstk2]
                      exact depsSourced_tail w _ dep rest hsrc
          · split at h
            · rename_i e heq
              injection h with h
              subst h
              split at heq
              · exact absurd heq
                  (resolveWithMultipleConstraints_ne_cycle w _ _ _ _)
              · exact absurd heq (resolve_remote_dependency_ne_cycle w _ _)
            · rename_i resolved_dep heq1
              split at h
              · refine ih rest _ a ?_ ?_ h
                · show stackChain w st.resolution_stack
                  exact hch
                · show depsSourced w st.resolution_stack rest
                  exact depsSourced_tail w _ dep rest hsrc
              · rename_i sub subsRest heq2
                split at h
                · rename_i e heq3
                  injection h with h
                  subst h
                  have hspec : resolved_dep.address = dep.address ∧
                      ∃ v ∈ w.tags dep.address,
                        resolved_dep.manifest = w.manifestOf dep.address v := by
                    split at heq1
                    · exact resolveWithMultipleConstraints_spec w dep.address
                        dep.depAlias _ resolved_dep heq1
                    · exact resolve_remote_dependency_spec w dep resolved_dep
                        heq1
                  rcases hspec with ⟨-, v, hv, hman⟩
                  cases hrm : resolved_dep.manifest with
                  | none =>
                    rw [hrm] at heq2
                    exact List.noConfusion heq2
                  | some man =>
                    rw [hrm] at hman
                    have heq2b : remoteOnly man.dependencies =
                        sub :: subsRest := by
                      rw [hrm] at heq2
                      exact heq2
                    refine ih (sub :: subsRest) _ a ?_ ?_ heq3
                    · exact stackChain_push w st.resolution_stack dep.address
                        hch (depsSourced_head w _ dep rest hsrc hpnone)
                    · intro d hd hp
                      refine manifest_subs_edges w dep.address man v hv
                        hman.symm d ?_ hp
                      rw [heq2b]
                      exact hd
                · rename_i st2 heq3
                  have hstkb : st2.resolution_stack =
                      dep.address :: st.resolution_stack :=
                    resolveTree_stack w fuel (sub :: subsRest) _ st2 heq3
                  have hstk2 : st2.resolution_stack.erase dep.address =
                      st.resolution_stack := by
                    rw [hstkb, List.erase_cons_head]
                  refine ih rest _ a ?_ ?_ h
                  · show stackChain w (st2.resolution_stack.erase dep.address)
                    rw [hstk2]
                    exact hch
                  · show depsSourced w
                      (st2.resolution_stack.erase dep.address) rest
                    rw [hstk2]
                    exact depsSourced_tail w _ dep rest hsrc

/-- C8: On an acyclic remote dependency graph, resolving all dependencies
never fails with the cycle-detected TransitiveDependencyError, for any
fuel: a cycle error is raised only along a genuine directed cycle of the
remote edges. -/
theorem resolve_acyclic_no_cycle_error (w : RepoWorld)
    (hacyc : ∀ c, ¬ Relation.TransGen (depEdge w) c c)
    (fuel : Nat) (manifest : RManifest) (a : String) :
    resolve_all_dependencies w fuel manifest ≠ .error (.cycle a) := by
  intro h
  unfold resolve_all_dependencies at h
  rcases resolveTree_cycle_sound w fuel (remoteOnly manifest.dependencies)
    ⟨[], [], []⟩ a trivial trivial h with ⟨c, hc⟩
  exact hacyc c hc

/-- Witness: a one-dependency world with no remote edges resolves without
the cycle error. -/
theorem resolve_acyclic_no_cycle_error_witness :
    resolve_all_dependencies
      ⟨fun _ => [], fun _ _ => true, fun _ _ => none⟩ 3
      ⟨0, [⟨"github.com/a/p", "1.0.0", "p", none⟩]⟩ ≠
      .error (.cycle "github.com/a/p") :=
  resolve_acyclic_no_cycle_error _
    (fun c hc => by
      cases hc with
      | single h =>
        rcases h with ⟨v, hv, _⟩
        simp at hv
      | tail _ h =>
        rcases h with ⟨v, hv, _⟩
        simp at hv)
    3 _ _

/-- C8 counterexample: the remote graph has a directed cycle (the root
dependency b depends on itself) yet resolution fails with the
version-resolution DependencyResolveError for the sibling x listed first,
not with the cycle error: a reachable cycle does not guarantee the cycle
error. -/
theorem resolve_cycle_preempted_counterexample :
    depEdge
      ⟨fun a => if a == "b" then [1] else [],
       fun _ _ => true,
       fun a v => if a == "b" && v == 1 then
         some ⟨1, [⟨"b", "1", "ab", none⟩]⟩ else none⟩
      "b" "b" ∧
    "b" ∈ remoteAddresses ⟨0, [⟨"x", "1", "ax", none⟩, ⟨"b", "1", "ab", none⟩]⟩ ∧
    resolve_all_dependencies
      ⟨fun a => if a == "b" then [1] else [],
       fun _ _ => true,
       fun a v => if a == "b" && v == 1 then
         some ⟨1, [⟨"b", "1", "ab", none⟩]⟩ else none⟩
      10 ⟨0, [⟨"x", "1", "ax", none⟩, ⟨"b", "1", "ab", none⟩]⟩ =
      .error (.resolveFail "x") := by
  refine ⟨⟨1, by decide, ⟨1, [⟨"b", "1", "ab", none⟩]⟩, by decide, by decide⟩,
    by decide, rfl⟩
